import Mathlib

/-!
Verification of the affilinker slug-assignment / content-rewrite engine.

The TypeScript sources are shallowly embedded as follows:
* JavaScript strings are `List Char` (named `Str` below);
* `Date.now()` is threaded as an explicit `now : Nat` parameter;
* the external npm `slugify` library is an abstract function parameter
  (its behaviour is irrelevant to every property proved here);
* JavaScript `Map` objects are association lists in insertion order;
* the `new URL(...)` constructor is modelled by `parseURL`, which fails
  (returns `none`) exactly where the claims need it to: absent `://`,
  empty scheme or empty host.
-/

/-- JavaScript strings are modelled as lists of characters. -/
abbrev Str : Type := List Char

/-- Coerce a Lean string literal to the `List Char` model. -/
def str (s : String) : Str := s.data

/-- The decimal digit character for `n < 10` (used to model
JavaScript number-to-string interpolation). -/
def decDigit (n : Nat) : Char :=
  match n with
  | 0 => '0' | 1 => '1' | 2 => '2' | 3 => '3' | 4 => '4'
  | 5 => '5' | 6 => '6' | 7 => '7' | 8 => '8' | _ => '9'

/-- Numeric value of a decimal digit character. -/
def charVal (c : Char) : Nat := c.toNat - 48

/-- Fuel-driven decimal rendering of a natural number (the fuel makes the
recursion structural, so that terms evaluate by `decide`). -/
def natToDecF : Nat → Nat → Str
  | 0, n => [decDigit n]
  | fuel + 1, n =>
    if n < 10 then [decDigit n]
    else natToDecF fuel (n / 10) ++ [decDigit (n % 10)]

/-- Decimal rendering of a natural number, as produced by JavaScript
template interpolation of a number. -/
def natToDec (n : Nat) : Str := natToDecF n n

/-- Left fold reading a decimal digit string back to a number. -/
def decVal (s : Str) : Nat := s.foldl (fun a c => 10 * a + charVal c) 0

theorem charVal_decDigit {n : Nat} (h : n < 10) : charVal (decDigit n) = n := by
  interval_cases n <;> decide

theorem decVal_append_digit (xs : Str) (c : Char) :
    decVal (xs ++ [c]) = 10 * decVal xs + charVal c := by
  simp [decVal, List.foldl_append]

theorem decVal_natToDecF : ∀ fuel n, n ≤ fuel → decVal (natToDecF fuel n) = n := by
  intro fuel
  induction fuel with
  | zero =>
    intro n hn
    have h0 : n = 0 := Nat.le_zero.mp hn
    subst h0
    simp [natToDecF, decVal, charVal_decDigit]
  | succ fuel ih =>
    intro n hn
    by_cases h : n < 10
    · simp [natToDecF, h, decVal, charVal_decDigit h]
    · have h10 : 10 ≤ n := Nat.le_of_not_lt h
      have hdiv : n / 10 ≤ fuel := by
        have hlt : n / 10 < n := Nat.div_lt_self (by omega) (by omega)
        omega
      simp only [natToDecF, if_neg h]
      rw [decVal_append_digit, ih (n / 10) hdiv,
        charVal_decDigit (Nat.mod_lt n (by omega))]
      omega

theorem decVal_natToDec (n : Nat) : decVal (natToDec n) = n :=
  decVal_natToDecF n n (Nat.le_refl n)

theorem natToDec_injective : Function.Injective natToDec := by
  intro m n h
  have := decVal_natToDec m
  rw [h, decVal_natToDec] at this
  exact this.symm

/-- Base-36 digit character, for `Date.now().toString(36)`. -/
def b36Digit (n : Nat) : Char :=
  if n < 10 then decDigit n else Char.ofNat (87 + n)

/-- Fuel-driven base-36 rendering. -/
def natToB36F : Nat → Nat → Str
  | 0, n => [b36Digit n]
  | fuel + 1, n =>
    if n < 36 then [b36Digit n]
    else natToB36F fuel (n / 36) ++ [b36Digit (n % 36)]

/-- Base-36 rendering of a natural number (`Number.prototype.toString(36)`). -/
def natToB36 (n : Nat) : Str := natToB36F n n

/-- Split a string at the first occurrence of `sep`, returning the parts
before and after it; `none` when `sep` does not occur.  This models both
`String.prototype.indexOf`-style searching and single `replace`. -/
def findSplit (sep : Str) : Str → Option (Str × Str)
  | [] => if sep = [] then some ([], []) else none
  | c :: cs =>
    if sep ≠ [] ∧ sep <+: (c :: cs) then some ([], (c :: cs).drop sep.length)
    else (findSplit sep cs).map (fun p => (c :: p.1, p.2))

/-- `s.includes(p)` for nonempty `p`: does `p` occur as a contiguous
substring of `s`? -/
def occursb (s p : Str) : Bool := (findSplit p s).isSome

/-- `String.prototype.replace` with a plain-string pattern: replace the
first occurrence only. -/
def replaceFirst (s pat rep : Str) : Str :=
  match findSplit pat s with
  | some (a, b) => a ++ rep ++ b
  | none => s

/-- `String.prototype.split(c)`: split on a separator character, keeping
empty segments. -/
def splitList (c : Char) : Str → List Str
  | [] => [[]]
  | x :: xs =>
    if x = c then [] :: splitList c xs
    else
      match splitList c xs with
      | h :: t => (x :: h) :: t
      | [] => [[x]]

/-- Fuel-driven model of JavaScript `String.prototype.replace` with a
global (`g`) flag and a fully escaped literal pattern: replace every
non-overlapping occurrence, scanning left to right.  The fuel makes the
recursion structural; `fuel ≥ s.length` always suffices. -/
def replaceAllF : Nat → Str → Str → Str → Str
  | 0, s, _, _ => s
  | fuel + 1, s, p, r =>
    match s with
    | [] => []
    | c :: cs =>
      if p ≠ [] ∧ p <+: (c :: cs) then r ++ replaceAllF fuel ((c :: cs).drop p.length) p r
      else c :: replaceAllF fuel cs p r

/-- Global literal replacement (the meaning of
`content.replace(new RegExp(escaped, 'g'), rep)` in the source). -/
def replaceAll (s p r : Str) : Str := replaceAllF s.length s p r

theorem replaceAllF_fuelIrrel :
    ∀ f₁ f₂ (s p r : Str), s.length ≤ f₁ → s.length ≤ f₂ →
      replaceAllF f₁ s p r = replaceAllF f₂ s p r := by
  intro f₁
  induction f₁ with
  | zero =>
    intro f₂ s p r h₁ _
    have hs : s = [] := List.eq_nil_of_length_eq_zero (Nat.le_zero.mp h₁)
    subst hs
    cases f₂ <;> simp [replaceAllF]
  | succ f₁ ih =>
    intro f₂ s p r h₁ h₂
    cases s with
    | nil => cases f₂ <;> simp [replaceAllF]
    | cons c cs =>
      cases f₂ with
      | zero => simp at h₂
      | succ f₂ =>
        simp only [replaceAllF]
        by_cases hp : p ≠ [] ∧ p <+: (c :: cs)
        · rw [if_pos hp, if_pos hp]
          have hplen : 1 ≤ p.length := by
            cases p with
            | nil => exact absurd rfl hp.1
            | cons _ _ => simp
          have hd : ((c :: cs).drop p.length).length ≤ f₁ := by
            simp only [List.length_drop, List.length_cons]
            simp only [List.length_cons] at h₁
            omega
          have hd₂ : ((c :: cs).drop p.length).length ≤ f₂ := by
            simp only [List.length_drop, List.length_cons]
            simp only [List.length_cons] at h₂
            omega
          rw [ih f₂ _ p r hd hd₂]
        · rw [if_neg hp, if_neg hp]
          have hcs : cs.length ≤ f₁ := by simp at h₁; omega
          have hcs₂ : cs.length ≤ f₂ := by simp at h₂; omega
          rw [ih f₂ cs p r hcs hcs₂]

theorem replaceAll_eq_fuel (f : Nat) (s p r : Str) (h : s.length ≤ f) :
    replaceAll s p r = replaceAllF f s p r :=
  replaceAllF_fuelIrrel s.length f s p r (Nat.le_refl _) h

theorem occursb_cons (c : Char) (cs p : Str) :
    occursb (c :: cs) p =
      (decide (p ≠ [] ∧ p <+: (c :: cs)) || occursb cs p) := by
  by_cases h : p ≠ [] ∧ p <+: (c :: cs)
  · simp [occursb, findSplit, h]
  · simp only [occursb, findSplit, if_neg h, decide_eq_true_eq]
    simp [h, Option.isSome_map]

/-- A pattern that does not occur is never replaced. -/
theorem replaceAllF_of_occursb_false :
    ∀ fuel (s p r : Str), occursb s p = false → replaceAllF fuel s p r = s := by
  intro fuel
  induction fuel with
  | zero => intro s p r _; rfl
  | succ fuel ih =>
    intro s p r h
    cases s with
    | nil => rfl
    | cons c cs =>
      rw [occursb_cons] at h
      simp only [Bool.or_eq_false_iff, decide_eq_false_iff_not] at h
      simp only [replaceAllF, if_neg h.1]
      rw [ih cs p r h.2]

theorem replaceAll_of_occursb_false (s p r : Str) (h : occursb s p = false) :
    replaceAll s p r = s :=
  replaceAllF_of_occursb_false s.length s p r h

/-- Scanning passes untouched through a block that cannot contain the
head character of the pattern. -/
theorem replaceAllF_append_of_head_notMem :
    ∀ (s t p' : Str) (h : Char) (r : Str) fuel,
      h ∉ s → (s ++ t).length ≤ fuel →
      replaceAllF fuel (s ++ t) (h :: p') r =
        s ++ replaceAllF (fuel - s.length) t (h :: p') r := by
  intro s
  induction s with
  | nil =>
    intro t p' h r fuel _ _
    simp
  | cons c cs ih =>
    intro t p' h r fuel hnot hfuel
    cases fuel with
    | zero => simp at hfuel
    | succ fuel =>
      have hc : c ≠ h := by
        intro hch
        exact hnot (hch ▸ List.mem_cons_self c cs)
      have hnp : ¬((h :: p') ≠ [] ∧ (h :: p') <+: (c :: (cs ++ t))) := by
        rintro ⟨-, hpre⟩
        rcases (List.cons_prefix_cons.mp hpre) with ⟨hh, -⟩
        exact hc hh.symm
      simp only [List.cons_append, replaceAllF, if_neg hnp]
      have hnot' : h ∉ cs := fun hm => hnot (List.mem_cons_of_mem c hm)
      have hfuel' : (cs ++ t).length ≤ fuel := by
        simp only [List.cons_append, List.length_cons] at hfuel
        omega
      rw [ih t p' h r fuel hnot' hfuel']
      simp

/-- The markdown-link pattern the rewrite engine searches for:
`](<url>)`. -/
def pat (u : Str) : Str := str "](" ++ u ++ str ")"

/-- A URL (or tracking URL) is clean when it contains neither `)` nor
`]`; markdown URLs inside `](...)` always are. -/
def cleanUrl (u : Str) : Prop := ')' ∉ u ∧ ']' ∉ u

instance (u : Str) : Decidable (cleanUrl u) := by
  unfold cleanUrl; infer_instance

/-- Core disambiguation: if `w ++ [c]` is a prefix of `u ++ c :: t` and
`c` occurs in neither `w` nor `u`, then `w = u`. -/
theorem eq_of_append_sentinel :
    ∀ (w u : Str) (c : Char) (t : Str), c ∉ w → c ∉ u →
      (w ++ [c]) <+: (u ++ c :: t) → w = u := by
  intro w
  induction w with
  | nil =>
    intro u c t _ hcu hpre
    cases u with
    | nil => rfl
    | cons a u' =>
      rcases List.cons_prefix_cons.mp hpre with ⟨hca, -⟩
      exact absurd (hca ▸ List.mem_cons_self a u') hcu
  | cons b w' ih =>
    intro u c t hcw hcu hpre
    cases u with
    | nil =>
      rcases List.cons_prefix_cons.mp hpre with ⟨hbc, -⟩
      exact absurd (hbc ▸ List.mem_cons_self b w') hcw
    | cons a u' =>
      rcases List.cons_prefix_cons.mp hpre with ⟨hba, hrest⟩
      have hcw' : c ∉ w' := fun hm => hcw (List.mem_cons_of_mem b hm)
      have hcu' : c ∉ u' := fun hm => hcu (List.mem_cons_of_mem a hm)
      rw [hba, ih u' c t hcw' hcu' hrest]

/-- The pattern for `w` never starts at the front of a rendered link for
a different clean URL `u`. -/
theorem pat_not_prefix_pat_append {u w : Str} (t : Str)
    (hne : u ≠ w) (hu : ')' ∉ u) (hw : ')' ∉ w) :
    ¬ (pat w <+: (pat u ++ t)) := by
  intro hpre
  apply hne
  have hshape : (pat u ++ t) = ']' :: '(' :: (u ++ ')' :: t) := by
    simp [pat, str]
  have hshape' : pat w = ']' :: '(' :: (w ++ [')']) := by
    simp [pat, str]
  rw [hshape, hshape'] at hpre
  rcases List.cons_prefix_cons.mp hpre with ⟨-, hpre₁⟩
  rcases List.cons_prefix_cons.mp hpre₁ with ⟨-, hpre₂⟩
  exact (eq_of_append_sentinel w u ')' t hw hu hpre₂).symm

theorem pat_shape (u : Str) : pat u = ']' :: '(' :: (u ++ [')']) := by
  simp [pat, str]

theorem pat_shape_append (u t : Str) : pat u ++ t = ']' :: '(' :: (u ++ ')' :: t) := by
  simp [pat, str]

theorem pat_ne_nil (u : Str) : pat u ≠ [] := by
  rw [pat_shape]; simp

/-- Replacement consumes a leading exact occurrence of the pattern. -/
theorem replaceAll_pat_match (w t r : Str) :
    replaceAll (pat w ++ t) (pat w) r = r ++ replaceAll t (pat w) r := by
  have hcond : pat w ≠ [] ∧ pat w <+: (pat w ++ t) :=
    ⟨pat_ne_nil w, (pat w).prefix_append t⟩
  have hshape : pat w ++ t = ']' :: ('(' :: (w ++ ')' :: t)) := pat_shape_append w t
  have hlen : (pat w ++ t).length = ('(' :: (w ++ ')' :: t)).length + 1 := by
    rw [hshape]; simp
  unfold replaceAll
  rw [hlen]
  conv =>
    lhs
    rw [hshape]
  rw [replaceAllF]
  rw [← hshape, if_pos hcond, List.drop_left]
  rw [replaceAllF_fuelIrrel ('(' :: (w ++ ')' :: t)).length t.length t (pat w) r
    (by simp only [List.length_cons, List.length_append]; omega) (Nat.le_refl _)]

/-- Replacement passes untouched over a rendered link for a different
clean URL. -/
theorem replaceAll_pat_skip (u w t r : Str) (hne : u ≠ w)
    (hu : cleanUrl u) (hw : ')' ∉ w) :
    replaceAll (pat u ++ t) (pat w) r = pat u ++ replaceAll t (pat w) r := by
  have hnc : ¬ (pat w ≠ [] ∧ pat w <+: (pat u ++ t)) := by
    rintro ⟨-, hpre⟩
    exact pat_not_prefix_pat_append t hne hu.1 hw hpre
  have hshape : pat u ++ t = ']' :: (('(' :: (u ++ [')'])) ++ t) := by
    rw [pat_shape_append]; simp
  have hlen : (pat u ++ t).length = (('(' :: (u ++ [')'])) ++ t).length + 1 := by
    rw [hshape]; simp
  have hmem : ']' ∉ ('(' :: (u ++ [')'])) := by
    intro hm
    rcases List.mem_cons.mp hm with h | h
    · exact absurd h.symm (by decide)
    · rcases List.mem_append.mp h with h | h
      · exact hu.2 h
      · rcases List.mem_singleton.mp h with h
        exact absurd h (by decide)
  unfold replaceAll
  rw [hlen]
  conv =>
    lhs
    rw [hshape]
  rw [replaceAllF]
  rw [← hshape, if_neg hnc]
  have hfuel : (('(' :: (u ++ [')'])) ++ t).length ≤ (('(' :: (u ++ [')'])) ++ t).length :=
    Nat.le_refl _
  have hw' : pat w = ']' :: ('(' :: (w ++ [')'])) := pat_shape w
  rw [hw']
  rw [replaceAllF_append_of_head_notMem ('(' :: (u ++ [')'])) t
    ('(' :: (w ++ [')'])) ']' r _ hmem hfuel]
  rw [← hw']
  have harith : ((('(' :: (u ++ [')'])) ++ t).length - ('(' :: (u ++ [')'])).length) = t.length := by
    simp only [List.length_append, List.length_cons, List.length_singleton]
    omega
  rw [harith, ← replaceAll_eq_fuel t.length t _ r (Nat.le_refl _)]
  rw [pat_shape_append]
  simp

/-- Replacement passes untouched over a `]`-free text segment. -/
theorem replaceAll_seg_skip (s t w r : Str) (hs : ']' ∉ s) :
    replaceAll (s ++ t) (pat w) r = s ++ replaceAll t (pat w) r := by
  have hw' : pat w = ']' :: ('(' :: (w ++ [')'])) := pat_shape w
  unfold replaceAll
  rw [hw']
  rw [replaceAllF_append_of_head_notMem s t ('(' :: (w ++ [')'])) ']' r
    (s ++ t).length hs (Nat.le_refl _)]
  have : (s ++ t).length - s.length = t.length := by simp
  rw [this, ← hw', ← replaceAll_eq_fuel t.length t _ r (Nat.le_refl _)]

/-- A structured view of a markdown document: plain text segments
interleaved with the `](url)` tails of markdown links. -/
inductive MDPiece : Type
  | seg : Str → MDPiece
  | lnk : Str → MDPiece
deriving DecidableEq

/-- Flatten a piece back to text. -/
def renderPiece : MDPiece → Str
  | .seg s => s
  | .lnk u => pat u

/-- Flatten a whole document. -/
def render : List MDPiece → Str
  | [] => []
  | p :: ps => renderPiece p ++ render ps

/-- Well-formedness: text segments contain no `]`, link URLs contain
neither `]` nor `)`.  Under this discipline every occurrence of a
`](url)` pattern in the rendered document is the rendering of a link
piece. -/
def wfPiece : MDPiece → Prop
  | .seg s => ']' ∉ s
  | .lnk u => cleanUrl u

instance (p : MDPiece) : Decidable (wfPiece p) := by
  cases p <;> (unfold wfPiece; infer_instance)

def wfPieces (ps : List MDPiece) : Prop := ∀ p ∈ ps, wfPiece p

instance (ps : List MDPiece) : Decidable (wfPieces ps) := by
  unfold wfPieces; infer_instance

/-- Replace the URL of every link piece equal to `w` by `x`. -/
def substPiece (w x : Str) : MDPiece → MDPiece
  | .seg s => .seg s
  | .lnk u => if u = w then .lnk x else .lnk u

/-- Global replacement of the pattern for `w` acts on a well-formed
rendered document exactly by rewriting every `lnk w` piece. -/
theorem replaceAll_render (w x : Str) (hw : cleanUrl w) :
    ∀ ps : List MDPiece, wfPieces ps →
      replaceAll (render ps) (pat w) (pat x) =
        render (ps.map (substPiece w x)) := by
  intro ps
  induction ps with
  | nil =>
    intro _
    simp [render, replaceAll, replaceAllF]
  | cons p ps ih =>
    intro hwf
    have hwfp : wfPiece p := hwf p (List.mem_cons_self p ps)
    have hwfr : wfPieces ps := fun q hq => hwf q (List.mem_cons_of_mem p hq)
    cases p with
    | seg s =>
      have hs : ']' ∉ s := hwfp
      simp only [render, renderPiece, List.map_cons, substPiece]
      rw [replaceAll_seg_skip s (render ps) w (pat x) hs, ih hwfr]
    | lnk u =>
      by_cases hequ : u = w
      · subst hequ
        simp only [render, renderPiece, List.map_cons, substPiece, if_pos rfl]
        rw [replaceAll_pat_match u (render ps) (pat x), ih hwfr]
        simp [render, renderPiece]
      · simp only [render, renderPiece, List.map_cons, substPiece, if_neg hequ]
        rw [replaceAll_pat_skip u w (render ps) (pat x) hequ hwfp hw.1, ih hwfr]

/-- If no link piece carries URL `w`, the substitution is the identity. -/
theorem map_substPiece_eq_self (w x : Str) :
    ∀ ps : List MDPiece, MDPiece.lnk w ∉ ps → ps.map (substPiece w x) = ps := by
  intro ps
  induction ps with
  | nil => intro _; rfl
  | cons p ps ih =>
    intro hn
    have hp : p ≠ MDPiece.lnk w := fun h => hn (h ▸ List.mem_cons_self p ps)
    have hps : MDPiece.lnk w ∉ ps := fun h => hn (List.mem_cons_of_mem p h)
    rw [List.map_cons, ih hps]
    cases p with
    | seg s => rfl
    | lnk u =>
      have hu : u ≠ w := fun h => hp (by rw [h])
      simp [substPiece, hu]

/-- Substituting a genuinely present link URL changes the rendering. -/
theorem render_substPiece_ne (w x : Str) (hx : ')' ∉ x) (hne : x ≠ w) :
    ∀ ps : List MDPiece, wfPieces ps → MDPiece.lnk w ∈ ps →
      render (ps.map (substPiece w x)) ≠ render ps := by
  intro ps
  induction ps with
  | nil => intro _ hmem; cases hmem
  | cons p ps ih =>
    intro hwf hmem heq
    have hwfp : wfPiece p := hwf p (List.mem_cons_self p ps)
    have hwfr : wfPieces ps := fun q hq => hwf q (List.mem_cons_of_mem p hq)
    cases p with
    | seg s =>
      simp only [List.map_cons, render, renderPiece, substPiece] at heq
      have htail := List.append_cancel_left heq
      have hmem' : MDPiece.lnk w ∈ ps := by
        rcases List.mem_cons.mp hmem with h | h
        · cases h
        · exact h
      exact ih hwfr hmem' htail
    | lnk u =>
      by_cases hequ : u = w
      · subst hequ
        simp only [List.map_cons, render, renderPiece, substPiece, if_pos rfl] at heq
        have hpre : pat x <+: (pat u ++ render ps) :=
          ⟨render (ps.map (substPiece u x)), heq⟩
        exact pat_not_prefix_pat_append (render ps) (fun h => hne h.symm)
          hwfp.1 hx hpre
      · simp only [List.map_cons, render, renderPiece, substPiece, if_neg hequ] at heq
        have htail := List.append_cancel_left heq
        have hmem' : MDPiece.lnk w ∈ ps := by
          rcases List.mem_cons.mp hmem with h | h
          · injection h with h2
            exact absurd h2.symm hequ
          · exact h
        exact ih hwfr hmem' htail

/-!
## URL model

An executable model of the WHATWG `URL` constructor for the
`scheme://host/path?query#fragment` inputs at which this development
computes concrete values: parsing fails (JavaScript would throw) when
`://` is absent or the scheme or host is empty; the host is lowercased;
an empty path becomes `/`.  Percent-encoding is not modelled.  The
constructor's exact accept/throw boundary on arbitrary strings is
platform behaviour that this model only approximates (it does not
validate host code points, and it rejects special-scheme forms such as
`http:foo.com` that the constructor normalises); every result whose
truth depends on that boundary — determinism of slug assignment, whose
clock fallback sits on the constructor's error path — therefore
quantifies over an arbitrary parser function (`URLParseFn` below)
rather than relying on this model, which serves as the concrete
instantiation for evaluation. -/

structure URLRec : Type where
  scheme : Str
  hostname : Str
  pathname : Str
  params : List (Str × Str)
  fragment : Str
deriving DecidableEq

/-- Parse one `key=value` query component (`key` alone means empty
value). -/
def parseQueryItem (seg : Str) : Str × Str :=
  match findSplit (str "=") seg with
  | some (k, v) => (k, v)
  | none => (seg, [])

/-- Parse a query string (without its leading `?`) into
`URLSearchParams`-style key/value pairs, skipping empty components. -/
def parseQuery (q : Str) : List (Str × Str) :=
  ((splitList '&' q).filter (fun seg => seg ≠ [])).map parseQueryItem

/-- Concrete model of `new URL(s)`: `none` where the constructor throws
on the well-formed inputs in scope.  Parser-boundary-sensitive results
take the parser abstractly instead of using this model. -/
def parseURL (s : Str) : Option URLRec :=
  match findSplit (str "://") s with
  | none => none
  | some (scheme, rest) =>
    if scheme = [] then none
    else
      let host := rest.takeWhile (fun c => ¬(c = '/' ∨ c = '?' ∨ c = '#'))
      if host = [] then none
      else
        let rest2 := rest.drop host.length
        let path := rest2.takeWhile (fun c => ¬(c = '?' ∨ c = '#'))
        let rest3 := rest2.drop path.length
        let qstr := rest3.takeWhile (fun c => ¬(c = '#'))
        let frag := rest3.drop qstr.length
        some (URLRec.mk scheme (host.map Char.toLower)
          (if path = [] then str "/" else path)
          (match qstr with
           | '?' :: qs => parseQuery qs
           | _ => [])
          frag)

/-- Serialize search params back to a query string (leading `?`
included when nonempty), as `URL.prototype.toString` does. -/
def serializeParams (ps : List (Str × Str)) : Str :=
  match ps with
  | [] => []
  | _ => '?' :: List.intercalate (str "&") (ps.map (fun e => e.1 ++ '=' :: e.2))

/-- Model of `URL.prototype.toString`. -/
def serializeURL (u : URLRec) : Str :=
  u.scheme ++ str "://" ++ u.hostname ++ u.pathname ++ serializeParams u.params ++ u.fragment

/-- `URLSearchParams.delete(k)`. -/
def paramsDelete (ps : List (Str × Str)) (k : Str) : List (Str × Str) :=
  ps.filter (fun e => ¬(e.1 = k))

/-- `URLSearchParams.set(k, v)`: overwrite the first entry for `k` in
place, drop the others, or append when absent. -/
def paramsSet : List (Str × Str) → Str → Str → List (Str × Str)
  | [], k, v => [(k, v)]
  | e :: rest, k, v =>
    if e.1 = k then (k, v) :: paramsDelete rest k
    else e :: paramsSet rest k v

/-- `url.hostname.replace('www.', '').split('.')[0]`: drop the first
occurrence of `www.` anywhere, then keep the first dot-separated
label.  Used both for collision suffixes and for fallback slugs. -/
def hostFirstLabel (hostname : Str) : Str :=
  (replaceFirst hostname (str "www.") []).takeWhile (fun c => ¬(c = '.'))

/-- `url.pathname.split('/').filter(Boolean)[0] || ''`: the first
nonempty `/`-separated segment of the path (or empty). -/
def firstPathSeg (pathname : Str) : Str :=
  (pathname.dropWhile (fun c => c = '/')).takeWhile (fun c => ¬(c = '/'))

/-!
## Data model (`src/types.ts`) -/

/-- One observed link occurrence (`ExtractedLink` in the source). -/
structure ExtractedLink : Type where
  url : Str
  text : Str
  file : Str
  line : Nat
  column : Nat
  isAffiliate : Bool
  network : Option Str
deriving DecidableEq

/-- One persisted record (`AffiliateLink` in the source); field names are
the on-disk contract. -/
structure AffiliateLink : Type where
  slug : Str
  name : Str
  url : Str
  is_affiliate : Bool
  network : Option Str
deriving DecidableEq

/-- Per-network configuration (`{enabled, tag, cleanParams}`);
`tag`/`cleanParams` may be absent. -/
structure NetworkConfig : Type where
  enabled : Bool
  tag : Option Str
  cleanParams : Option Bool
deriving DecidableEq

structure TrackingConfig : Type where
  baseUrl : Str
deriving DecidableEq

/-- The configuration surface the engine reads (`LinksmithConfig`),
restricted to the fields the embedded functions consume. -/
structure LinksmithConfig : Type where
  tracking : TrackingConfig
  networks : List (Str × NetworkConfig)

/-- Options handed to a network plugin's `convert`. -/
structure NetworkOptions : Type where
  tag : Option Str
  cleanParams : Bool
deriving DecidableEq

/-- JavaScript string truthiness for an optional string (`undefined` and
`''` are falsy). -/
def optTruthy : Option Str → Bool
  | none => false
  | some s => s ≠ []

/-- Options record of the npm `slugify` call sites
(`{lower, strict, trim?}`). -/
structure SlugifyOpts : Type where
  lower : Bool
  strict : Bool
  trim : Option Bool
deriving DecidableEq

/-- The external npm `slugify` library, abstracted as a function
parameter: the claims hold for every behaviour of it. -/
abbrev SlugifyFn : Type := SlugifyOpts → Str → Str

/-- A network plugin (the `detect/convert/extractProductId/generateSlug`
capability contract); only the members the engine calls are modelled,
and `generateSlug` receives the ambient clock explicitly. -/
structure NetworkPlugin : Type where
  name : Str
  convert : Str → NetworkOptions → Str
  generateSlug : Str → Str → Nat → Str

/-- The `slug.slice(0, 50).replace(..., '')` cleanup: strip every
trailing dash (the regex `-+$`). -/
def trimTrailingDashes (s : Str) : Str :=
  (s.reverse.dropWhile (fun c => c = '-')).reverse

/-!
## Amazon plugin (`src/plugins/builtin/amazon.ts`) -/

def AMAZON_DOMAINS : List Str :=
  [str "amazon.com", str "amazon.co.uk", str "amazon.de", str "amazon.fr",
   str "amazon.it", str "amazon.es", str "amazon.ca", str "amazon.com.au",
   str "amazon.co.jp", str "amazon.in", str "amzn.to", str "amzn.com"]

/-- Case-insensitive literal matching: consume `pse` from the front of
the subject, returning the rest. -/
def stripCI : Str → Str → Option Str
  | [], s => some s
  | _ :: _, [] => none
  | p :: ps, c :: cs => if c.toLower = p.toLower then stripCI ps cs else none

/-- The regex character class `[A-Z0-9]` under the `i` flag. -/
def isAsinChar (c : Char) : Bool :=
  ('A' ≤ c ∧ c ≤ 'Z') ∨ ('a' ≤ c ∧ c ≤ 'z') ∨ ('0' ≤ c ∧ c ≤ '9')

/-- Exactly ten consecutive `[A-Z0-9]{10}` characters. -/
def asin10 (s : Str) : Option Str :=
  let t := s.take 10
  if t.length = 10 ∧ t.all isAsinChar then some t else none

/-- Attempt of the regex `\/(?:dp|gp\/product)\/([A-Z0-9]{10})/i` at one
position (the two alternatives start with distinct letters, so regex
backtracking reduces to trying both). -/
def amazonP1At (s : Str) : Option Str :=
  match s with
  | '/' :: rest =>
    (match stripCI (str "dp/") rest with
     | some r => asin10 r
     | none => none).orElse (fun _ =>
      match stripCI (str "gp/product/") rest with
      | some r => asin10 r
      | none => none)
  | _ => none

/-- Attempt of `amzn\.to\/([A-Za-z0-9]+)` (case-sensitive) at one
position. -/
def amazonP2At (s : Str) : Option Str :=
  match s with
  | 'a' :: 'm' :: 'z' :: 'n' :: '.' :: 't' :: 'o' :: '/' :: rest =>
    let run := rest.takeWhile isAsinChar
    if run = [] then none else some run
  | _ => none

/-- Attempt of `\/(?:gp\/product|dp)\/([A-Z0-9]{10})\/ref=/i` at one
position. -/
def amazonP3At (s : Str) : Option Str :=
  match s with
  | '/' :: rest =>
    (match stripCI (str "gp/product/") rest with
     | some r =>
       match asin10 r with
       | some m => (stripCI (str "/ref=") (r.drop 10)).map (fun _ => m)
       | none => none
     | none => none).orElse (fun _ =>
      match stripCI (str "dp/") rest with
      | some r =>
        match asin10 r with
        | some m => (stripCI (str "/ref=") (r.drop 10)).map (fun _ => m)
        | none => none
      | none => none)
  | _ => none

/-- Left-to-right scan for the first position where an attempt
succeeds (regex leftmost-match semantics). -/
def scanFor (f : Str → Option Str) : Str → Option Str
  | [] => f []
  | c :: cs =>
    match f (c :: cs) with
    | some m => some m
    | none => scanFor f cs

/-- `AmazonPlugin.extractProductId`: first matching pattern wins, but
any `amzn.to` URL yields `null`. -/
def amazonExtractProductId (url : Str) : Option Str :=
  match scanFor amazonP1At url with
  | some m => if occursb url (str "amzn.to") then none else some m
  | none =>
    match scanFor amazonP2At url with
    | some m => if occursb url (str "amzn.to") then none else some m
    | none =>
      match scanFor amazonP3At url with
      | some m => if occursb url (str "amzn.to") then none else some m
      | none => none

/-- `AmazonPlugin.extractDomain`. -/
def amazonExtractDomain (url : Str) : Str :=
  match parseURL url with
  | some u =>
    let hostname := replaceFirst (u.hostname.map Char.toLower) (str "www.") []
    match AMAZON_DOMAINS.find? (fun d => hostname = d ∨ ('.' :: d) <:+ hostname) with
    | some d => d
    | none => str "amazon.com"
  | none => str "amazon.com"

/-- `AmazonPlugin.updateTag`: strip known affiliate params and set the
tag, falling back to plain string surgery when URL parsing fails.  (The
regex fallback models `/tag=[^&]+/` as "replace from the first `tag=`
to the next `&`".) -/
def amazonUpdateTag (url : Str) (tag? : Option Str) : Str :=
  if optTruthy tag? then
    let tag := tag?.getD []
    match parseURL url with
    | some u =>
      let ps := paramsDelete (paramsDelete (paramsDelete (paramsDelete (paramsDelete
        (paramsDelete u.params (str "tag")) (str "linkCode")) (str "creative"))
        (str "creativeASIN")) (str "camp")) (str "ref")
      serializeURL (URLRec.mk u.scheme u.hostname u.pathname
        (paramsSet ps (str "tag") tag) u.fragment)
    | none =>
      if occursb url (str "tag=") then
        match findSplit (str "tag=") url with
        | some (a, b) => a ++ str "tag=" ++ tag ++ b.dropWhile (fun c => ¬(c = '&'))
        | none => url
      else
        url ++ (if occursb url (str "?") then '&' :: str "tag=" ++ tag
                else '?' :: str "tag=" ++ tag)
  else url

/-- `AmazonPlugin.convert`. -/
def amazonConvert (url : Str) (options : NetworkOptions) : Str :=
  match amazonExtractProductId url with
  | none => amazonUpdateTag url options.tag
  | some asin =>
    let domain := amazonExtractDomain url
    let cleanUrl := str "https://www." ++ domain ++ str "/dp/" ++ asin
    if optTruthy options.tag then cleanUrl ++ str "?tag=" ++ options.tag.getD []
    else cleanUrl

/-- `AmazonPlugin.generateSlug` (the `Date.now()` of the last resort is
the explicit `now`). -/
def amazonGenerateSlug (slugifyF : SlugifyFn) (url linkText : Str) (now : Nat) : Str :=
  if linkText ≠ [] ∧ linkText ≠ url then
    trimTrailingDashes ((slugifyF (SlugifyOpts.mk true true (some true)) linkText).take 50)
  else
    match amazonExtractProductId url with
    | some asin => str "amazon-" ++ asin.map Char.toLower
    | none => str "amazon-product-" ++ natToB36 now

/-- `createAmazonPlugin()`. -/
def amazonPlugin (slugifyF : SlugifyFn) : NetworkPlugin :=
  NetworkPlugin.mk (str "amazon") amazonConvert (amazonGenerateSlug slugifyF)

/-!
## Slug assignment (`src/core/transformer/index.ts`) -/

/-- `new Map(plugins.map(p => [p.name, p]))`: name lookup with later
entries overriding earlier ones. -/
def pluginFor (plugins : List NetworkPlugin) (n : Str) : Option NetworkPlugin :=
  plugins.foldl (fun acc p => if p.name = n then some p else acc) none

/-- `(config.networks as any)[name]`: object-key lookup. -/
def ncfgFor (cfg : LinksmithConfig) (n : Str) : Option NetworkConfig :=
  (cfg.networks.find? (fun e => e.1 = n)).map (fun e => e.2)

/-- `url.startsWith('http')` — the qualifying test used throughout. -/
def isHttp (u : Str) : Bool := (str "http").isPrefixOf u

/-- The shared default branch of `Transformer.generateSlug` and
`Reporter.generateSlug` (the two sources are textually identical):
slugified display text when present and different from the URL, else a
host-plus-first-path-segment slug, else the clock token. -/
def defaultGenerateSlug (slugifyF : SlugifyFn) (link : ExtractedLink) (now : Nat) : Str :=
  if link.text ≠ [] ∧ link.text ≠ link.url then
    trimTrailingDashes ((slugifyF (SlugifyOpts.mk true true (some true)) link.text).take 50)
  else
    match parseURL link.url with
    | some u =>
      (slugifyF (SlugifyOpts.mk true true none)
        (hostFirstLabel u.hostname ++ '-' :: firstPathSeg u.pathname)).take 50
    | none => str "link-" ++ natToB36 now

/-- `generateSlug(link)`: prefer the matched network plugin, else the
default derivation. -/
def generateSlugCore (plugins : List NetworkPlugin) (slugifyF : SlugifyFn)
    (link : ExtractedLink) (now : Nat) : Str :=
  match link.network with
  | some n =>
    match pluginFor plugins n with
    | some plugin => plugin.generateSlug link.url link.text now
    | none => defaultGenerateSlug slugifyF link now
  | none => defaultGenerateSlug slugifyF link now

/-- Candidate slug with numeric suffix (`` `${baseSlug}-${counter}` ``). -/
def numCand (base : Str) (n : Nat) : Str := base ++ '-' :: natToDec n

/-- Candidate slug with host-label suffix (`` `${baseSlug}-${domain}` ``). -/
def domCand (base host : Str) : Str := base ++ '-' :: host

/-- The collision-resolution `while (usedSlugs.has(slug))` loop of
`generateLinkMap`, made structural by fuel; `usedSlugs.length + 2` fuel
is always sufficient (proved below). -/
def resolveSlugAux (used : List Str) (base : Str) (host? : Option Str) :
    Str → Nat → Nat → Str
  | slug, _, 0 => slug
  | slug, counter, fuel + 1 =>
    if slug ∈ used then
      match host? with
      | some h =>
        if domCand base h ∈ used then
          resolveSlugAux used base host? (numCand base (counter + 1)) (counter + 1) fuel
        else domCand base h
      | none => resolveSlugAux used base host? (numCand base (counter + 1)) (counter + 1) fuel
    else slug

/-- Resolve a base slug against the reserved set (`host?` is the
`try { new URL } catch` host label, absent when parsing fails). -/
def resolveSlug (used : List Str) (base : Str) (host? : Option Str) : Str :=
  resolveSlugAux used base host? base 1 (used.length + 2)

/-- `this.config`/`this.plugins` of a `Transformer` instance. -/
structure Transformer : Type where
  config : LinksmithConfig
  plugins : List NetworkPlugin

/-- `Transformer.generateSlug`. -/
def Transformer.generateSlug (t : Transformer) (slugifyF : SlugifyFn)
    (link : ExtractedLink) (now : Nat) : Str :=
  generateSlugCore t.plugins slugifyF link now

/-- The `finalUrl` computation of `generateLinkMap`: convert only when a
plugin for the link's network exists and the network is enabled. -/
def transformerFinalUrl (t : Transformer) (link : ExtractedLink) : Str :=
  match link.network with
  | none => link.url
  | some n =>
    match pluginFor t.plugins n with
    | none => link.url
    | some plugin =>
      match ncfgFor t.config n with
      | none => link.url
      | some ncfg =>
        if ncfg.enabled then
          plugin.convert link.url (NetworkOptions.mk ncfg.tag (ncfg.cleanParams.getD true))
        else link.url

/-- The record stored per URL (`map.set(link.url, {...})`). -/
def entryFor (link : ExtractedLink) (slug finalUrl : Str) : AffiliateLink :=
  AffiliateLink.mk slug (if link.text = [] then link.url else link.text)
    finalUrl link.isAffiliate link.network

/-- `map.has(key)` for the insertion-ordered association list. -/
def hasKey (m : List (Str × AffiliateLink)) (k : Str) : Bool :=
  m.any (fun e => e.1 = k)

/-- One iteration of the deduplicating assignment loop, shared verbatim
by `Transformer.generateLinkMap` and `Reporter.toAffiliateLinks`
(the two loop bodies are textually identical in the source, so they are
embedded once, parametrised by the slug generator and the `finalUrl`
computation in which they differ). -/
def assignStep (genSlug : ExtractedLink → Str) (finalUrlOf : ExtractedLink → Str)
    (st : List (Str × AffiliateLink) × List Str) (link : ExtractedLink) :
    List (Str × AffiliateLink) × List Str :=
  if ¬ isHttp link.url then st
  else if hasKey st.1 link.url then st
  else
    let baseSlug := genSlug link
    let host? := (parseURL link.url).map (fun u => hostFirstLabel u.hostname)
    let slug := resolveSlug st.2 baseSlug host?
    (st.1 ++ [(link.url, entryFor link slug (finalUrlOf link))], st.2 ++ [slug])

/-- The whole assignment loop over an occurrence list. -/
def assignLinks (genSlug finalUrlOf : ExtractedLink → Str)
    (links : List ExtractedLink) : List (Str × AffiliateLink) × List Str :=
  links.foldl (assignStep genSlug finalUrlOf) ([], [])

/-- `Transformer.generateLinkMap`. -/
def Transformer.generateLinkMap (t : Transformer) (slugifyF : SlugifyFn)
    (links : List ExtractedLink) (now : Nat) : List (Str × AffiliateLink) :=
  (assignLinks (fun l => generateSlugCore t.plugins slugifyF l now)
    (transformerFinalUrl t) links).1

/-- `this.plugins`/`this.config` of a `Reporter` instance (the config is
optional there). -/
structure Reporter : Type where
  plugins : List NetworkPlugin
  config : Option LinksmithConfig

/-- The `finalUrl` computation of `Reporter.toAffiliateLinks`
(`if (link.network && this.config)`). -/
def reporterFinalUrl (r : Reporter) (link : ExtractedLink) : Str :=
  match link.network, r.config with
  | some n, some cfg =>
    match pluginFor r.plugins n with
    | none => link.url
    | some plugin =>
      match ncfgFor cfg n with
      | none => link.url
      | some ncfg =>
        if ncfg.enabled then
          plugin.convert link.url (NetworkOptions.mk ncfg.tag (ncfg.cleanParams.getD true))
        else link.url
  | _, _ => link.url

/-- `Reporter.toAffiliateLinks` (`Array.from(byUrl.values())`). -/
def Reporter.toAffiliateLinks (r : Reporter) (slugifyF : SlugifyFn)
    (links : List ExtractedLink) (now : Nat) : List AffiliateLink :=
  ((assignLinks (fun l => generateSlugCore r.plugins slugifyF l now)
    (reporterFinalUrl r) links).1).map (fun e => e.2)

/-!
## Converter (`src/core/converter/index.ts`) -/

structure ConversionResult : Type where
  original : Str
  converted : Str
  network : Str
  tag : Option Str
deriving DecidableEq

/-- `Converter.convert`: `null` without a network, a plugin, or an
enabled network configuration. -/
def converterConvert (config : LinksmithConfig) (plugins : List NetworkPlugin)
    (link : ExtractedLink) : Option ConversionResult :=
  match link.network with
  | none => none
  | some n =>
    match pluginFor plugins n with
    | none => none
    | some plugin =>
      match ncfgFor config n with
      | none => none
      | some ncfg =>
        if ¬ ncfg.enabled then none
        else
          some (ConversionResult.mk link.url
            (plugin.convert link.url (NetworkOptions.mk ncfg.tag (ncfg.cleanParams.getD true)))
            n ncfg.tag)

/-!
## Content rewrite (`Transformer.transformFile`) -/

structure Change : Type where
  original : Str
  slug : Str
  trackingUrl : Str
deriving DecidableEq

structure TransformResult : Type where
  file : Str
  originalContent : Str
  transformedContent : Str
  linksTransformed : Nat
  changes : List Change
deriving DecidableEq

/-- `findOrGenerateSlug`. -/
def findOrGenerateSlug (t : Transformer) (slugifyF : SlugifyFn) (now : Nat)
    (link : ExtractedLink) (linkMap : List (Str × AffiliateLink)) : Str :=
  match linkMap.find? (fun e => e.1 = link.url) with
  | some e => e.2.slug
  | none => generateSlugCore t.plugins slugifyF link now

/-- The sort comparator `(a, b) => b.line - a.line || b.column - a.column`:
descending by line, then descending by column. -/
def posDescLE (a b : ExtractedLink) : Bool :=
  if a.line ≠ b.line then b.line < a.line else b.column ≤ a.column

def insertByPos (a : ExtractedLink) : List ExtractedLink → List ExtractedLink
  | [] => [a]
  | b :: bs => if posDescLE a b then a :: b :: bs else b :: insertByPos a bs

/-- The `[...links].sort(...)` position sort (any comparator-respecting
sort is faithful; only the fact that it permutes the list matters to the
claims, since the replacement is global). -/
def sortByPosDesc (links : List ExtractedLink) : List ExtractedLink :=
  links.foldr insertByPos []

/-- The body of the rewrite loop: skip non-`http` URLs, perform the
global `](url)` → `](trackingUrl)` substitution, and record a change
entry only when the text actually changed. -/
def transformStep (t : Transformer) (slugifyF : SlugifyFn)
    (linkMap : List (Str × AffiliateLink)) (now : Nat)
    (st : Str × List Change) (link : ExtractedLink) : Str × List Change :=
  if ¬ isHttp link.url then st
  else
    let slug := findOrGenerateSlug t slugifyF now link linkMap
    let trackingUrl := t.config.tracking.baseUrl ++ slug
    let after := replaceAll st.1 (pat link.url) (pat trackingUrl)
    if after ≠ st.1 then (after, st.2 ++ [Change.mk link.url slug trackingUrl])
    else (after, st.2)

/-- `Transformer.transformFile` (the `readFileSync` is modelled by the
explicit `content` argument). -/
def Transformer.transformFile (t : Transformer) (slugifyF : SlugifyFn)
    (filePath content : Str) (links : List ExtractedLink)
    (linkMap : List (Str × AffiliateLink)) (now : Nat) : TransformResult :=
  let res := (sortByPosDesc links).foldl (transformStep t slugifyF linkMap now) (content, [])
  TransformResult.mk filePath content res.1 res.2.length res.2

/-!
## Flat-file store (`src/adapters/filesystem.ts`)

The JSON file contents are modelled as the list of records it holds. -/

/-- `Map.prototype.set` on an insertion-ordered association list:
overwrite in place or append. -/
def mapSet : List (Str × AffiliateLink) → Str → AffiliateLink → List (Str × AffiliateLink)
  | [], k, v => [(k, v)]
  | e :: rest, k, v => if e.1 = k then (k, v) :: rest else e :: mapSet rest k v

/-- `new Map(existing.map(l => [l.slug, l]))`. -/
def buildSlugMap (ls : List AffiliateLink) : List (Str × AffiliateLink) :=
  ls.foldl (fun m l => mapSet m l.slug l) []

/-- `FileSystemAdapter.upsertLinks`: read-merge-write, new value wins
per whole record keyed by slug. -/
def fsUpsertLinks (store links : List AffiliateLink) : List AffiliateLink :=
  ((links.foldl (fun m l => mapSet m l.slug l) (buildSlugMap store)).map (fun e => e.2))

/-- `FileSystemAdapter.getLinkBySlug`. -/
def fsGetLinkBySlug (store : List AffiliateLink) (slug : Str) : Option AffiliateLink :=
  store.find? (fun l => l.slug = slug)

/-!
## Collision-resolution theory -/

theorem numCand_injRight (base : Str) {m n : Nat} (h : numCand base m = numCand base n) :
    m = n := by
  unfold numCand at h
  have h₁ := List.append_cancel_left h
  injection h₁ with _ h₂
  exact natToDec_injective h₂

/-- Among any `used.length + 1` consecutive numeric candidates, at least
one is free. -/
theorem exists_free_numCand (used : List Str) (base : Str) (start : Nat) :
    ∃ k, k < used.length + 1 ∧ numCand base (start + k) ∉ used := by
  by_contra hcon
  push_neg at hcon
  have hinj : Function.Injective (fun k : Nat => numCand base (start + k)) := by
    intro k₁ k₂ hk
    have := numCand_injRight base hk
    omega
  have hsub : (Finset.range (used.length + 1)).image (fun k => numCand base (start + k))
      ⊆ used.toFinset := by
    intro x hx
    rcases Finset.mem_image.mp hx with ⟨k, hk, rfl⟩
    exact List.mem_toFinset.mpr (hcon k (Finset.mem_range.mp hk))
  have hcard := Finset.card_le_card hsub
  rw [Finset.card_image_of_injective _ hinj, Finset.card_range] at hcard
  have := used.toFinset_card_le
  omega

theorem resolveSlugAux_not_mem (used : List Str) (base : Str) (host? : Option Str) :
    ∀ fuel counter slug,
      (slug ∉ used ∨ ∃ k, k < fuel ∧ numCand base (counter + 1 + k) ∉ used) →
      resolveSlugAux used base host? slug counter fuel ∉ used := by
  intro fuel
  induction fuel with
  | zero =>
    intro counter slug h
    rcases h with h | ⟨k, hk, _⟩
    · exact h
    · omega
  | succ fuel ih =>
    intro counter slug h
    by_cases hs : slug ∈ used
    · have hfree : ∃ k, k < fuel + 1 ∧ numCand base (counter + 1 + k) ∉ used := by
        rcases h with h | h
        · exact absurd hs h
        · exact h
      simp only [resolveSlugAux, if_pos hs]
      have hrec : resolveSlugAux used base host?
          (numCand base (counter + 1)) (counter + 1) fuel ∉ used := by
        apply ih (counter + 1) (numCand base (counter + 1))
        rcases hfree with ⟨k, hk, hkfree⟩
        cases k with
        | zero =>
          left
          simpa using hkfree
        | succ k =>
          right
          refine ⟨k, by omega, ?_⟩
          have : counter + 1 + 1 + k = counter + 1 + (k + 1) := by omega
          rw [this]
          exact hkfree
      match host? with
      | some h' =>
        by_cases hdom : domCand base h' ∈ used
        · simpa only [if_pos hdom] using hrec
        · simpa only [if_neg hdom] using hdom
      | none => exact hrec
    · simp only [resolveSlugAux, if_neg hs]
      exact hs

/-- The assigned slug is never already reserved. -/
theorem resolveSlug_not_mem (used : List Str) (base : Str) (host? : Option Str) :
    resolveSlug used base host? ∉ used := by
  apply resolveSlugAux_not_mem used base host? (used.length + 2) 1 base
  right
  rcases exists_free_numCand used base 2 with ⟨k, hk, hfree⟩
  exact ⟨k, by omega, by simpa using hfree⟩

/-- Numeric phase of the loop: starting from candidate `counter` with
the host alternative already ruled out, the loop walks the candidates in
increasing order and returns the first free one. -/
theorem resolveSlugAux_numeric (used : List Str) (base : Str) (host? : Option Str)
    (hhost : ∀ h, host? = some h → domCand base h ∈ used) :
    ∀ fuel counter,
      (∃ k, k ≤ fuel ∧ numCand base (counter + k) ∉ used) →
      ∃ j, resolveSlugAux used base host? (numCand base counter) counter fuel =
          numCand base (counter + j) ∧
        numCand base (counter + j) ∉ used ∧
        ∀ i, i < j → numCand base (counter + i) ∈ used := by
  intro fuel
  induction fuel with
  | zero =>
    intro counter hfree
    rcases hfree with ⟨k, hk, hkfree⟩
    have hk0 : k = 0 := Nat.le_zero.mp hk
    subst hk0
    exact ⟨0, rfl, hkfree, fun i hi => absurd hi (by omega)⟩
  | succ fuel ih =>
    intro counter hfree
    by_cases hc : numCand base counter ∈ used
    · have hfree' : ∃ k, k ≤ fuel ∧ numCand base (counter + 1 + k) ∉ used := by
        rcases hfree with ⟨k, hk, hkfree⟩
        cases k with
        | zero => exact absurd (by simpa using hc) (by simpa using hkfree)
        | succ k =>
          refine ⟨k, by omega, ?_⟩
          have : counter + 1 + k = counter + (k + 1) := by omega
          rw [this]
          exact hkfree
      have hstep : resolveSlugAux used base host? (numCand base counter) counter (fuel + 1) =
          resolveSlugAux used base host? (numCand base (counter + 1)) (counter + 1) fuel := by
        simp only [resolveSlugAux, if_pos hc]
        match host? with
        | some h' => simp only [if_pos (hhost h' rfl)]
        | none => rfl
      rcases ih (counter + 1) hfree' with ⟨j, hres, hjfree, hcov⟩
      refine ⟨j + 1, ?_, ?_, ?_⟩
      · rw [hstep, hres]
        congr 1
        omega
      · have : counter + (j + 1) = counter + 1 + j := by omega
        rw [this]
        exact hjfree
      · intro i hi
        cases i with
        | zero => simpa using hc
        | succ i =>
          have : counter + (i + 1) = counter + 1 + i := by omega
          rw [this]
          exact hcov i (by omega)
    · exact ⟨0, by simp only [resolveSlugAux, if_neg hc, Nat.add_zero],
        by simpa using hc, fun i hi => absurd hi (by omega)⟩

/-!
## Assignment-loop invariants -/

/-- First-encounter deduplication of the qualifying (`http`-prefixed)
URLs of an occurrence list, relative to URLs already seen. -/
def distinctHttpUrlsAux (seen : List Str) : List ExtractedLink → List Str
  | [] => []
  | l :: rest =>
    if isHttp l.url ∧ l.url ∉ seen then
      l.url :: distinctHttpUrlsAux (seen ++ [l.url]) rest
    else distinctHttpUrlsAux seen rest

/-- The distinct qualifying URLs of an occurrence list, in first-seen
order. -/
def distinctHttpUrls (links : List ExtractedLink) : List Str :=
  distinctHttpUrlsAux [] links

theorem hasKey_eq_mem (m : List (Str × AffiliateLink)) (k : Str) :
    hasKey m k = true ↔ k ∈ m.map Prod.fst := by
  simp only [hasKey, List.any_eq_true, List.mem_map, decide_eq_true_eq]

theorem assign_keys_aux (g f : ExtractedLink → Str) :
    ∀ (links : List ExtractedLink) (st : List (Str × AffiliateLink) × List Str),
      ((links.foldl (assignStep g f) st).1).map Prod.fst =
        st.1.map Prod.fst ++ distinctHttpUrlsAux (st.1.map Prod.fst) links := by
  intro links
  induction links with
  | nil => intro st; simp [distinctHttpUrlsAux]
  | cons l rest ih =>
    intro st
    rw [List.foldl_cons]
    by_cases hhttp : isHttp l.url
    · by_cases hkey : hasKey st.1 l.url
      · have hseen : l.url ∈ st.1.map Prod.fst := (hasKey_eq_mem st.1 l.url).mp hkey
        have hstep : assignStep g f st l = st := by
          simp [assignStep, hhttp, hkey]
        rw [hstep, ih st]
        have hcond : ¬(isHttp l.url = true ∧ l.url ∉ st.1.map Prod.fst) := by
          intro hc
          exact hc.2 hseen
        simp only [distinctHttpUrlsAux, if_neg hcond]
      · have hseen : l.url ∉ st.1.map Prod.fst := by
          intro hm
          exact hkey ((hasKey_eq_mem st.1 l.url).mpr hm)
        have hstep : assignStep g f st l =
            (st.1 ++ [(l.url, entryFor l
                (resolveSlug st.2 (g l) ((parseURL l.url).map (fun u => hostFirstLabel u.hostname)))
                (f l))],
             st.2 ++ [resolveSlug st.2 (g l) ((parseURL l.url).map (fun u => hostFirstLabel u.hostname))]) := by
          simp [assignStep, hhttp, hkey]
        rw [hstep, ih]
        have hcond : isHttp l.url = true ∧ l.url ∉ st.1.map Prod.fst := ⟨hhttp, hseen⟩
        simp only [distinctHttpUrlsAux, if_pos hcond]
        simp
    · have hstep : assignStep g f st l = st := by
        simp [assignStep, hhttp]
      rw [hstep, ih st]
      have hcond : ¬(isHttp l.url = true ∧ l.url ∉ st.1.map Prod.fst) := by
        intro hc
        exact hhttp hc.1
      simp only [distinctHttpUrlsAux, if_neg hcond]

theorem distinctHttpUrlsAux_not_seen :
    ∀ (links : List ExtractedLink) (seen : List Str) (u : Str),
      u ∈ distinctHttpUrlsAux seen links → u ∉ seen := by
  intro links
  induction links with
  | nil => intro seen u hu; cases hu
  | cons l rest ih =>
    intro seen u hu
    by_cases hc : isHttp l.url = true ∧ l.url ∉ seen
    · simp only [distinctHttpUrlsAux, if_pos hc] at hu
      rcases List.mem_cons.mp hu with h | h
      · exact h ▸ hc.2
      · intro hs
        exact ih (seen ++ [l.url]) u h (List.mem_append.mpr (Or.inl hs))
    · simp only [distinctHttpUrlsAux, if_neg hc] at hu
      exact ih seen u hu

theorem distinctHttpUrlsAux_nodup :
    ∀ (links : List ExtractedLink) (seen : List Str),
      (distinctHttpUrlsAux seen links).Nodup := by
  intro links
  induction links with
  | nil => intro seen; simp [distinctHttpUrlsAux]
  | cons l rest ih =>
    intro seen
    by_cases hc : isHttp l.url = true ∧ l.url ∉ seen
    · simp only [distinctHttpUrlsAux, if_pos hc]
      refine List.nodup_cons.mpr ⟨?_, ih (seen ++ [l.url])⟩
      intro hmem
      exact distinctHttpUrlsAux_not_seen rest (seen ++ [l.url]) l.url hmem
        (List.mem_append.mpr (Or.inr (List.mem_singleton.mpr rfl)))
    · simp only [distinctHttpUrlsAux, if_neg hc]
      exact ih seen

theorem distinctHttpUrlsAux_mem :
    ∀ (links : List ExtractedLink) (seen : List Str) (u : Str),
      u ∈ distinctHttpUrlsAux seen links ↔
        (isHttp u = true ∧ u ∉ seen ∧ ∃ l ∈ links, l.url = u) := by
  intro links
  induction links with
  | nil =>
    intro seen u
    simp [distinctHttpUrlsAux]
  | cons l rest ih =>
    intro seen u
    by_cases hc : isHttp l.url = true ∧ l.url ∉ seen
    · simp only [distinctHttpUrlsAux, if_pos hc, List.mem_cons]
      constructor
      · rintro (rfl | h)
        · exact ⟨hc.1, hc.2, l, Or.inl rfl, rfl⟩
        · rcases (ih (seen ++ [l.url]) u).mp h with ⟨hh, hns, l', hl', hu⟩
          exact ⟨hh, fun hs => hns (List.mem_append.mpr (Or.inl hs)),
            l', Or.inr hl', hu⟩
      · rintro ⟨hh, hns, l', hl', hu⟩
        by_cases hul : u = l.url
        · exact Or.inl hul
        · right
          rcases hl' with rfl | hl'
          · exact absurd hu.symm hul
          · refine (ih (seen ++ [l.url]) u).mpr ⟨hh, ?_, l', hl', hu⟩
            intro hs
            rcases List.mem_append.mp hs with hs | hs
            · exact hns hs
            · exact hul (List.mem_singleton.mp hs)
    · simp only [distinctHttpUrlsAux, if_neg hc]
      rw [ih seen u]
      constructor
      · rintro ⟨hh, hns, l', hl', hu⟩
        exact ⟨hh, hns, l', List.mem_cons_of_mem l hl', hu⟩
      · rintro ⟨hh, hns, l', hl', hu⟩
        rcases List.mem_cons.mp hl' with rfl | hl'
        · exact absurd ⟨hu ▸ hh, hu ▸ hns⟩ hc
        · exact ⟨hh, hns, l', hl', hu⟩

theorem assignStep_skip_nonhttp (g f : ExtractedLink → Str)
    (st : List (Str × AffiliateLink) × List Str) (l : ExtractedLink)
    (hhttp : ¬ isHttp l.url = true) : assignStep g f st l = st := by
  simp [assignStep, hhttp]

theorem assignStep_skip_seen (g f : ExtractedLink → Str)
    (st : List (Str × AffiliateLink) × List Str) (l : ExtractedLink)
    (hkey : hasKey st.1 l.url = true) : assignStep g f st l = st := by
  simp [assignStep, hkey]

theorem assignStep_add (g f : ExtractedLink → Str)
    (st : List (Str × AffiliateLink) × List Str) (l : ExtractedLink)
    (hhttp : isHttp l.url = true) (hkey : ¬ hasKey st.1 l.url = true) :
    assignStep g f st l =
      (st.1 ++ [(l.url, entryFor l
          (resolveSlug st.2 (g l) ((parseURL l.url).map (fun u => hostFirstLabel u.hostname)))
          (f l))],
       st.2 ++ [resolveSlug st.2 (g l) ((parseURL l.url).map (fun u => hostFirstLabel u.hostname))]) := by
  simp [assignStep, hhttp, hkey]

/-- Invariant: assigned slugs are pairwise distinct and all reserved. -/
theorem assign_slugs_nodup_aux (g f : ExtractedLink → Str) :
    ∀ (links : List ExtractedLink) (st : List (Str × AffiliateLink) × List Str),
      (st.1.map (fun e => e.2.slug)).Nodup →
      (∀ s ∈ st.1.map (fun e => e.2.slug), s ∈ st.2) →
      ((links.foldl (assignStep g f) st).1.map (fun e => e.2.slug)).Nodup ∧
        (∀ s ∈ (links.foldl (assignStep g f) st).1.map (fun e => e.2.slug),
          s ∈ (links.foldl (assignStep g f) st).2) := by
  intro links
  induction links with
  | nil => intro st h₁ h₂; exact ⟨h₁, h₂⟩
  | cons l rest ih =>
    intro st h₁ h₂
    rw [List.foldl_cons]
    by_cases hhttp : isHttp l.url
    · by_cases hkey : hasKey st.1 l.url
      · rw [assignStep_skip_seen g f st l hkey]
        exact ih st h₁ h₂
      · rw [assignStep_add g f st l hhttp hkey]
        set slug := resolveSlug st.2 (g l)
          ((parseURL l.url).map (fun u => hostFirstLabel u.hostname)) with hslug
        have hnotmem : slug ∉ st.2 := resolveSlug_not_mem st.2 (g l) _
        apply ih
        · rw [List.map_append, List.nodup_append]
          refine ⟨h₁, by simp, ?_⟩
          intro s hs hs'
          simp only [List.map_cons, List.map_nil, List.mem_singleton, entryFor] at hs'
          subst hs'
          exact hnotmem (h₂ _ hs)
        · intro s hs
          rw [List.map_append] at hs
          rcases List.mem_append.mp hs with hs | hs
          · exact List.mem_append.mpr (Or.inl (h₂ s hs))
          · simp only [List.map_cons, List.map_nil, List.mem_singleton, entryFor] at hs
            subst hs
            exact List.mem_append.mpr (Or.inr (by simp))
    · rw [assignStep_skip_nonhttp g f st l hhttp]
      exact ih st h₁ h₂

/-- Every entry in the final mapping either was already present or was
built by `entryFor` from some occurrence with that URL. -/
theorem assign_entry_src (g f : ExtractedLink → Str) :
    ∀ (links : List ExtractedLink) (st : List (Str × AffiliateLink) × List Str)
      (u : Str) (e : AffiliateLink),
      (u, e) ∈ (links.foldl (assignStep g f) st).1 →
      (u, e) ∈ st.1 ∨ ∃ l ∈ links, l.url = u ∧ ∃ s, e = entryFor l s (f l) := by
  intro links
  induction links with
  | nil => intro st u e h; exact Or.inl h
  | cons l rest ih =>
    intro st u e h
    rw [List.foldl_cons] at h
    by_cases hhttp : isHttp l.url
    · by_cases hkey : hasKey st.1 l.url
      · rw [assignStep_skip_seen g f st l hkey] at h
        rcases ih st u e h with h | ⟨l', hl', hu, s, he⟩
        · exact Or.inl h
        · exact Or.inr ⟨l', List.mem_cons_of_mem l hl', hu, s, he⟩
      · rw [assignStep_add g f st l hhttp hkey] at h
        rcases ih _ u e h with h | ⟨l', hl', hu, s, he⟩
        · rcases List.mem_append.mp h with h | h
          · exact Or.inl h
          · rcases List.mem_singleton.mp h with heq
            injection heq with h₁ h₂
            exact Or.inr ⟨l, List.mem_cons_self l rest, h₁.symm, _, h₂⟩
        · exact Or.inr ⟨l', List.mem_cons_of_mem l hl', hu, s, he⟩
    · rw [assignStep_skip_nonhttp g f st l hhttp] at h
      rcases ih st u e h with h | ⟨l', hl', hu, s, he⟩
      · exact Or.inl h
      · exact Or.inr ⟨l', List.mem_cons_of_mem l hl', hu, s, he⟩

/-- Did `generateLinkMap` actually delegate conversion for this link:
a network is named, a plugin for it is registered, and its
configuration exists and is enabled? -/
def transformerConvertActive (t : Transformer) (l : ExtractedLink) : Bool :=
  match l.network with
  | none => false
  | some n =>
    match pluginFor t.plugins n with
    | none => false
    | some _ =>
      match ncfgFor t.config n with
      | none => false
      | some c => c.enabled

theorem transformerFinalUrl_of_inactive (t : Transformer) (l : ExtractedLink)
    (h : transformerConvertActive t l = false) :
    transformerFinalUrl t l = l.url := by
  cases hn : l.network with
  | none => simp [transformerFinalUrl, hn]
  | some n =>
    cases hp : pluginFor t.plugins n with
    | none => simp [transformerFinalUrl, hn, hp]
    | some p =>
      cases hc : ncfgFor t.config n with
      | none => simp [transformerFinalUrl, hn, hp, hc]
      | some c =>
        simp only [transformerConvertActive, hn, hp, hc] at h
        simp [transformerFinalUrl, hn, hp, hc, h]

/-- C1: the URL-to-record mapping produced by slug assignment has
exactly one entry per distinct qualifying (`http`-prefixed) raw URL —
its keys are precisely the distinct qualifying URLs in first-seen
order, hence without duplicates, and a URL is a key exactly when it is
the URL of some occurrence and qualifies — and no two entries share a
slug.  The same holds for `Reporter.toAffiliateLinks`, which runs the
identical loop: it emits one record per distinct qualifying URL and its
slugs are pairwise distinct. -/
theorem generateLinkMap_one_entry_per_url_unique_slugs
    (t : Transformer) (r : Reporter) (slugifyF : SlugifyFn)
    (links : List ExtractedLink) (now : Nat) :
    ((t.generateLinkMap slugifyF links now).map Prod.fst = distinctHttpUrls links) ∧
    ((t.generateLinkMap slugifyF links now).map Prod.fst).Nodup ∧
    (∀ u, u ∈ (t.generateLinkMap slugifyF links now).map Prod.fst ↔
      (isHttp u = true ∧ ∃ l ∈ links, l.url = u)) ∧
    ((t.generateLinkMap slugifyF links now).map (fun e => e.2.slug)).Nodup ∧
    (r.toAffiliateLinks slugifyF links now).length = (distinctHttpUrls links).length ∧
    ((r.toAffiliateLinks slugifyF links now).map (fun e => e.slug)).Nodup := by
  have hkeysT :
      (t.generateLinkMap slugifyF links now).map Prod.fst = distinctHttpUrls links := by
    unfold Transformer.generateLinkMap assignLinks distinctHttpUrls
    rw [assign_keys_aux]
    simp
  have hkeysR :
      ((assignLinks (fun l => generateSlugCore r.plugins slugifyF l now)
        (reporterFinalUrl r) links).1).map Prod.fst = distinctHttpUrls links := by
    unfold assignLinks distinctHttpUrls
    rw [assign_keys_aux]
    simp
  refine ⟨hkeysT, ?_, ?_, ?_, ?_, ?_⟩
  · rw [hkeysT]
    exact distinctHttpUrlsAux_nodup links []
  · intro u
    rw [hkeysT]
    unfold distinctHttpUrls
    rw [distinctHttpUrlsAux_mem]
    simp
  · have := assign_slugs_nodup_aux (fun l => generateSlugCore t.plugins slugifyF l now)
      (transformerFinalUrl t) links ([], []) (by simp) (by simp)
    exact this.1
  · unfold Reporter.toAffiliateLinks
    rw [List.length_map, ← hkeysR, List.length_map]
  · unfold Reporter.toAffiliateLinks
    rw [List.map_map]
    have := assign_slugs_nodup_aux (fun l => generateSlugCore r.plugins slugifyF l now)
      (reporterFinalUrl r) links ([], []) (by simp) (by simp)
    exact this.1

/-- C4: an occurrence whose network cannot be converted — in particular
one whose network is disabled in configuration — still yields a mapping
entry under its raw URL, and that entry's stored URL is the raw URL
unchanged; conversion is delegated only when a plugin exists and the
network is enabled (`transformerFinalUrl`/`Converter.convert` both
refuse otherwise, the latter returning `null`). -/
theorem generateLinkMap_disabled_network_keeps_url
    (t : Transformer) (slugifyF : SlugifyFn) (links : List ExtractedLink)
    (now : Nat) (u : Str)
    (hq : isHttp u = true ∧ ∃ l ∈ links, l.url = u)
    (hdis : ∀ l ∈ links, l.url = u → transformerConvertActive t l = false) :
    (∃ e, (u, e) ∈ t.generateLinkMap slugifyF links now ∧ e.url = u) ∧
    (∀ (cfg : LinksmithConfig) (plugins : List NetworkPlugin) (l : ExtractedLink)
      (n : Str) (c : NetworkConfig), l.network = some n → ncfgFor cfg n = some c →
      c.enabled = false → converterConvert cfg plugins l = none) := by
  constructor
  · have hmem : u ∈ (t.generateLinkMap slugifyF links now).map Prod.fst := by
      have hk : (t.generateLinkMap slugifyF links now).map Prod.fst = distinctHttpUrls links := by
        unfold Transformer.generateLinkMap assignLinks distinctHttpUrls
        rw [assign_keys_aux]
        simp
      rw [hk]
      unfold distinctHttpUrls
      rw [distinctHttpUrlsAux_mem]
      exact ⟨hq.1, by simp, hq.2⟩
    rcases List.mem_map.mp hmem with ⟨⟨u', e⟩, hin, hu⟩
    rcases hu
    refine ⟨e, hin, ?_⟩
    have := assign_entry_src (fun l => generateSlugCore t.plugins slugifyF l now)
      (transformerFinalUrl t) links ([], []) u' e hin
    rcases this with h | ⟨l, hl, hurl, s, he⟩
    · cases h
    · rw [he]
      have : transformerFinalUrl t l = l.url :=
        transformerFinalUrl_of_inactive t l (hdis l hl hurl)
      simp [entryFor, this, hurl]
  · intro cfg plugins l n c hn hc hen
    cases hp : pluginFor plugins n with
    | none => simp [converterConvert, hn, hp]
    | some p => simp [converterConvert, hn, hp, hc, hen]

/-- C2: when the base slug is already reserved, the engine first offers
the base slug with the URL-host's first label appended and uses it if
free; otherwise it walks `-2`, `-3`, … in increasing order — also
checking the very first numeric candidate — and assigns the first free
one.  `host?` is the outcome of the collision branch's own
`try { new URL } catch`: the host label when the constructor succeeds,
absent when it throws — abstracting it makes the statement independent
of the URL model, covering both branches for every constructor
behaviour. -/
theorem resolveSlug_collision_order (used : List Str) (base : Str)
    (host? : Option Str) (hbase : base ∈ used) :
    (∀ h, host? = some h → domCand base h ∉ used →
      resolveSlug used base host? = domCand base h) ∧
    ((∀ h, host? = some h → domCand base h ∈ used) →
      ∃ n, 2 ≤ n ∧ resolveSlug used base host? = numCand base n ∧
        numCand base n ∉ used ∧
        ∀ m, 2 ≤ m → m < n → numCand base m ∈ used) := by
  have hunfold : resolveSlug used base host? =
      resolveSlugAux used base host? base 1 (used.length + 1 + 1) := rfl
  constructor
  · intro h hh hfree
    subst hh
    rw [hunfold]
    simp only [resolveSlugAux, if_pos hbase, if_neg hfree]
  · intro hhost
    have hfree : ∃ k, k ≤ used.length + 1 ∧ numCand base (2 + k) ∉ used := by
      rcases exists_free_numCand used base 2 with ⟨k, hk, hkfree⟩
      exact ⟨k, by omega, hkfree⟩
    have hnum := resolveSlugAux_numeric used base host? hhost (used.length + 1) 2 hfree
    rcases hnum with ⟨j, hres, hjfree, hcov⟩
    have hstep : resolveSlugAux used base host? base 1 (used.length + 1 + 1) =
        resolveSlugAux used base host? (numCand base 2) 2 (used.length + 1) := by
      cases host? with
      | none => simp only [resolveSlugAux, if_pos hbase]
      | some h => simp only [resolveSlugAux, if_pos hbase, if_pos (hhost h rfl)]
    refine ⟨2 + j, by omega, ?_, hjfree, ?_⟩
    · rw [hunfold, hstep, hres]
    · intro m hm₂ hmj
      have : m = 2 + (m - 2) := by omega
      rw [this]
      exact hcov (m - 2) (by omega)

/-- Witness for C2 at a concrete reserved set: with `best-blender`,
`best-blender-amazon` and `best-blender-2` all taken, the engine falls
through the host alternative and the first numeric candidate to
`best-blender-3`. -/
theorem resolveSlug_collision_order_witness :
    (str "best-blender") ∈
        [str "best-blender", str "best-blender-amazon", str "best-blender-2"] ∧
    ∃ n, 2 ≤ n ∧
      resolveSlug [str "best-blender", str "best-blender-amazon", str "best-blender-2"]
          (str "best-blender") (some (str "amazon")) = numCand (str "best-blender") n ∧
      numCand (str "best-blender") n ∉
        [str "best-blender", str "best-blender-amazon", str "best-blender-2"] ∧
      ∀ m, 2 ≤ m → m < n → numCand (str "best-blender") m ∈
        [str "best-blender", str "best-blender-amazon", str "best-blender-2"] := by
  refine ⟨by decide, ?_⟩
  exact (resolveSlug_collision_order
    [str "best-blender", str "best-blender-amazon", str "best-blender-2"]
    (str "best-blender") (some (str "amazon")) (by decide)).2
    (by intro h hh; cases hh; decide)

/-!
## Determinism across runs (C3) -/

/-- A concrete `slugify` instantiation for counterexamples and
witnesses (its behaviour is irrelevant). -/
def slugifyId : SlugifyFn := fun _ s => s

def cfgPlain : LinksmithConfig :=
  LinksmithConfig.mk (TrackingConfig.mk (str "/link/")) []

def tPlain : Transformer := Transformer.mk cfgPlain []

/-- An occurrence whose URL starts with `http` but cannot be parsed by
`new URL` (empty host), with no usable display text: its slug falls
back to the clock token `link-<now36>`. -/
def linkClock : ExtractedLink :=
  ExtractedLink.mk (str "http://") [] (str "post.md") 1 1 false none

/-- Counterexample to C3 as stated: two runs of slug assignment over
the same single-occurrence list, at clock readings 0 and 1, produce
different mappings (the slug is `link-0` in one run and `link-1` in the
other), because the URL-unparsable fallback embeds `Date.now()`. -/
theorem generateLinkMap_clock_dependent :
    tPlain.generateLinkMap slugifyId [linkClock] 0 ≠
      tPlain.generateLinkMap slugifyId [linkClock] 1 := by
  decide

/-- The WHATWG `URL` constructor is platform code, exactly like the
`slugify` dependency: the embedding therefore takes the parser as a
function parameter (`none` modelling the constructor throwing), and the
determinism results below hold for every parser — in particular for the
platform constructor's own accept/throw behaviour, whatever it is.  The
concrete `parseURL` above instantiates this parameter wherever a value
is computed. -/
abbrev URLParseFn : Type := Str → Option URLRec

/-- The default branch of `Transformer.generateSlug`, with the URL
constructor abstract. `defaultGenerateSlugP parseURL` is definitionally
`defaultGenerateSlug`. -/
def defaultGenerateSlugP (urlParse : URLParseFn) (slugifyF : SlugifyFn)
    (link : ExtractedLink) (now : Nat) : Str :=
  if link.text ≠ [] ∧ link.text ≠ link.url then
    trimTrailingDashes ((slugifyF (SlugifyOpts.mk true true (some true)) link.text).take 50)
  else
    match urlParse link.url with
    | some u =>
      (slugifyF (SlugifyOpts.mk true true none)
        (hostFirstLabel u.hostname ++ '-' :: firstPathSeg u.pathname)).take 50
    | none => str "link-" ++ natToB36 now

/-- `generateSlug(link)` with the URL constructor abstract. -/
def generateSlugCoreP (urlParse : URLParseFn) (plugins : List NetworkPlugin)
    (slugifyF : SlugifyFn) (link : ExtractedLink) (now : Nat) : Str :=
  match link.network with
  | some n =>
    match pluginFor plugins n with
    | some plugin => plugin.generateSlug link.url link.text now
    | none => defaultGenerateSlugP urlParse slugifyF link now
  | none => defaultGenerateSlugP urlParse slugifyF link now

/-- One assignment-loop iteration with the URL constructor abstract
(the collision branch consults the constructor too, inside its own
`try { } catch`, so it takes the same parameter). -/
def assignStepP (urlParse : URLParseFn) (genSlug finalUrlOf : ExtractedLink → Str)
    (st : List (Str × AffiliateLink) × List Str) (link : ExtractedLink) :
    List (Str × AffiliateLink) × List Str :=
  if ¬ isHttp link.url then st
  else if hasKey st.1 link.url then st
  else
    let baseSlug := genSlug link
    let host? := (urlParse link.url).map (fun u => hostFirstLabel u.hostname)
    let slug := resolveSlug st.2 baseSlug host?
    (st.1 ++ [(link.url, entryFor link slug (finalUrlOf link))], st.2 ++ [slug])

def assignLinksP (urlParse : URLParseFn) (genSlug finalUrlOf : ExtractedLink → Str)
    (links : List ExtractedLink) : List (Str × AffiliateLink) × List Str :=
  links.foldl (assignStepP urlParse genSlug finalUrlOf) ([], [])

/-- `Transformer.generateLinkMap` with the URL constructor abstract. -/
def generateLinkMapP (t : Transformer) (urlParse : URLParseFn) (slugifyF : SlugifyFn)
    (links : List ExtractedLink) (now : Nat) : List (Str × AffiliateLink) :=
  (assignLinksP urlParse (fun l => generateSlugCoreP urlParse t.plugins slugifyF l now)
    (transformerFinalUrl t) links).1

/-- Instantiating the parser parameter with the concrete model recovers
the concrete embedding, definitionally. -/
theorem generateLinkMapP_parseURL (t : Transformer) (slugifyF : SlugifyFn)
    (links : List ExtractedLink) (now : Nat) :
    generateLinkMapP t parseURL slugifyF links now =
      t.generateLinkMap slugifyF links now := rfl

/-- Does slug derivation for this occurrence reach the `Date.now()`
fallback, for the CLI plugin registry `[createAmazonPlugin()]` and the
given URL-constructor behaviour?  That happens exactly when the display
text is unusable and — under the Amazon plugin — no ASIN can be
extracted, or — under the default derivation — the URL constructor
throws. -/
def cliSlugNeedsClock (urlParse : URLParseFn) (l : ExtractedLink) : Bool :=
  match l.network with
  | some n =>
    if n = str "amazon" then
      if l.text ≠ [] ∧ l.text ≠ l.url then false
      else (amazonExtractProductId l.url).isNone
    else
      if l.text ≠ [] ∧ l.text ≠ l.url then false
      else (urlParse l.url).isNone
  | none =>
    if l.text ≠ [] ∧ l.text ≠ l.url then false
    else (urlParse l.url).isNone

theorem defaultGenerateSlugP_clock_free (urlParse : URLParseFn) (slugifyF : SlugifyFn)
    (l : ExtractedLink)
    (h : (if l.text ≠ [] ∧ l.text ≠ l.url then false
          else (urlParse l.url).isNone) = false)
    (now₁ now₂ : Nat) :
    defaultGenerateSlugP urlParse slugifyF l now₁ =
      defaultGenerateSlugP urlParse slugifyF l now₂ := by
  unfold defaultGenerateSlugP
  by_cases ht : l.text ≠ [] ∧ l.text ≠ l.url
  · simp [ht]
  · rw [if_neg ht] at h
    simp only [if_neg ht]
    cases hu : urlParse l.url with
    | none => simp [hu] at h
    | some u => rfl

theorem generateSlugCoreP_clock_free (urlParse : URLParseFn) (slugifyF : SlugifyFn)
    (l : ExtractedLink)
    (h : cliSlugNeedsClock urlParse l = false) (now₁ now₂ : Nat) :
    generateSlugCoreP urlParse [amazonPlugin slugifyF] slugifyF l now₁ =
      generateSlugCoreP urlParse [amazonPlugin slugifyF] slugifyF l now₂ := by
  cases hn : l.network with
  | none =>
    simp only [cliSlugNeedsClock, hn] at h
    have e : ∀ now, generateSlugCoreP urlParse [amazonPlugin slugifyF] slugifyF l now =
        defaultGenerateSlugP urlParse slugifyF l now := by
      intro now
      simp [generateSlugCoreP, hn]
    rw [e now₁, e now₂]
    exact defaultGenerateSlugP_clock_free urlParse slugifyF l h now₁ now₂
  | some n =>
    simp only [cliSlugNeedsClock, hn] at h
    by_cases hname : n = str "amazon"
    · rw [if_pos hname] at h
      have hp : pluginFor [amazonPlugin slugifyF] n = some (amazonPlugin slugifyF) := by
        simp [pluginFor, amazonPlugin, hname]
      have e : ∀ now, generateSlugCoreP urlParse [amazonPlugin slugifyF] slugifyF l now =
          amazonGenerateSlug slugifyF l.url l.text now := by
        intro now
        simp only [generateSlugCoreP, hn]
        rw [hp]
        rfl
      rw [e now₁, e now₂]
      unfold amazonGenerateSlug
      by_cases ht : l.text ≠ [] ∧ l.text ≠ l.url
      · simp [ht]
      · rw [if_neg ht] at h
        simp only [if_neg ht]
        cases ha : amazonExtractProductId l.url with
        | none => rw [ha] at h; simp at h
        | some asin => rfl
    · rw [if_neg hname] at h
      have hp : pluginFor [amazonPlugin slugifyF] n = none := by
        simp [pluginFor, amazonPlugin]
        intro hcontra
        exact absurd hcontra.symm hname
      have e : ∀ now, generateSlugCoreP urlParse [amazonPlugin slugifyF] slugifyF l now =
          defaultGenerateSlugP urlParse slugifyF l now := by
        intro now
        simp [generateSlugCoreP, hn, hp]
      rw [e now₁, e now₂]
      exact defaultGenerateSlugP_clock_free urlParse slugifyF l h now₁ now₂

theorem assignLinksP_congr (urlParse : URLParseFn) (g₁ g₂ f : ExtractedLink → Str) :
    ∀ (links : List ExtractedLink) (st : List (Str × AffiliateLink) × List Str),
      (∀ l ∈ links, g₁ l = g₂ l) →
      links.foldl (assignStepP urlParse g₁ f) st =
        links.foldl (assignStepP urlParse g₂ f) st := by
  intro links
  induction links with
  | nil => intro st _; rfl
  | cons l rest ih =>
    intro st hg
    rw [List.foldl_cons, List.foldl_cons]
    have hstep : assignStepP urlParse g₁ f st l = assignStepP urlParse g₂ f st l := by
      unfold assignStepP
      rw [hg l (List.mem_cons_self l rest)]
    rw [hstep]
    exact ih _ (fun l' hl' => hg l' (List.mem_cons_of_mem l hl'))

/-- C3 amended: slug assignment run twice over the same occurrence list
in the same order — with the CLI plugin registry — assigns identical
slugs, provided no occurrence's slug derivation reaches the
time-dependent `Date.now()` fallback token.  The URL constructor is
platform code, so the statement quantifies over its behaviour: for
every parser function — covering whatever the platform's constructor
accepts or throws on — run-independence holds whenever the
clock-fallback test, judged by that same parser, is clear for every
occurrence.  (Occurrences that do reach the fallback may receive
different clock slugs across runs, as the recorded counterexample
shows; its input `http://` is one on which the concrete model and the
real constructor agree in throwing.) -/
theorem generateLinkMap_deterministic_without_clock
    (urlParse : URLParseFn) (cfg : LinksmithConfig) (slugifyF : SlugifyFn)
    (links : List ExtractedLink) (now₁ now₂ : Nat)
    (h : ∀ l ∈ links, cliSlugNeedsClock urlParse l = false) :
    generateLinkMapP (Transformer.mk cfg [amazonPlugin slugifyF]) urlParse slugifyF
        links now₁ =
      generateLinkMapP (Transformer.mk cfg [amazonPlugin slugifyF]) urlParse slugifyF
        links now₂ := by
  unfold generateLinkMapP assignLinksP
  have := assignLinksP_congr urlParse
    (fun l => generateSlugCoreP urlParse [amazonPlugin slugifyF] slugifyF l now₁)
    (fun l => generateSlugCoreP urlParse [amazonPlugin slugifyF] slugifyF l now₂)
    (transformerFinalUrl (Transformer.mk cfg [amazonPlugin slugifyF]))
    links ([], [])
    (fun l hl => generateSlugCoreP_clock_free urlParse slugifyF l (h l hl) now₁ now₂)
  rw [this]

/-- Witness for the amended C3 at the concrete parser instantiation and
a concrete occurrence list (display text present and different from the
URL, so no clock fallback). -/
theorem generateLinkMap_deterministic_without_clock_witness :
    generateLinkMapP (Transformer.mk cfgPlain [amazonPlugin slugifyId]) parseURL slugifyId
        [ExtractedLink.mk (str "https://example.com/x") (str "Nice Thing")
          (str "post.md") 3 7 false none] 0 =
      generateLinkMapP (Transformer.mk cfgPlain [amazonPlugin slugifyId]) parseURL slugifyId
        [ExtractedLink.mk (str "https://example.com/x") (str "Nice Thing")
          (str "post.md") 3 7 false none] 1 :=
  generateLinkMap_deterministic_without_clock parseURL cfgPlain slugifyId _ 0 1 (by decide)

/-!
## Flat-file upsert theory (C9, C10) -/

def keysOf (m : List (Str × AffiliateLink)) : List Str := m.map Prod.fst

def getEntry (m : List (Str × AffiliateLink)) (k : Str) : Option (Str × AffiliateLink) :=
  m.find? (fun e => e.1 = k)

theorem mapSet_get_same : ∀ (m : List (Str × AffiliateLink)) (k : Str) (v : AffiliateLink),
    getEntry (mapSet m k v) k = some (k, v) := by
  intro m
  induction m with
  | nil => intro k v; simp [mapSet, getEntry, List.find?]
  | cons e rest ih =>
    intro k v
    by_cases he : e.1 = k
    · simp [mapSet, he, getEntry, List.find?]
    · simp only [mapSet, if_neg he, getEntry, List.find?]
      rw [decide_eq_false he]
      exact ih k v

theorem mapSet_get_other : ∀ (m : List (Str × AffiliateLink)) (k k' : Str) (v : AffiliateLink),
    k' ≠ k → getEntry (mapSet m k v) k' = getEntry m k' := by
  intro m
  induction m with
  | nil =>
    intro k k' v hne
    simp only [mapSet, getEntry, List.find?]
    rw [decide_eq_false (show ¬ ((k : Str) = k') from fun h => hne h.symm)]
  | cons e rest ih =>
    intro k k' v hne
    by_cases he : e.1 = k
    · simp only [mapSet, if_pos he, getEntry, List.find?]
      rw [decide_eq_false (show ¬ ((k : Str) = k') from fun h => hne h.symm),
        decide_eq_false (show ¬ (e.1 = k') from fun h => hne (h.symm.trans he))]
    · simp only [mapSet, if_neg he, getEntry, List.find?]
      cases hd : decide (e.1 = k') with
      | true => rfl
      | false => exact ih k k' v hne

theorem mapSet_of_not_mem : ∀ (m : List (Str × AffiliateLink)) (k : Str) (v : AffiliateLink),
    k ∉ keysOf m → mapSet m k v = m ++ [(k, v)] := by
  intro m
  induction m with
  | nil => intro k v _; rfl
  | cons e rest ih =>
    intro k v h
    have he : e.1 ≠ k := by
      intro heq
      exact h (heq ▸ List.mem_map.mpr ⟨e, List.mem_cons_self e rest, rfl⟩)
    have hrest : k ∉ keysOf rest := by
      intro hk
      rcases List.mem_map.mp hk with ⟨e', he', hk'⟩
      exact h (List.mem_map.mpr ⟨e', List.mem_cons_of_mem e he', hk'⟩)
    simp only [mapSet, if_neg he, List.cons_append]
    rw [ih k v hrest]

theorem mapSet_of_mem_nodup : ∀ (m : List (Str × AffiliateLink)) (k : Str) (v : AffiliateLink),
    k ∈ keysOf m → (keysOf m).Nodup →
    mapSet m k v = m.map (fun e => if e.1 = k then (k, v) else e) := by
  intro m
  induction m with
  | nil => intro k v h _; cases h
  | cons e rest ih =>
    intro k v h hnd
    rcases List.nodup_cons.mp hnd with ⟨hhead, htail⟩
    by_cases he : e.1 = k
    · simp only [mapSet, if_pos he, List.map_cons, if_pos he]
      have hmap : rest.map (fun e => if e.1 = k then (k, v) else e) = rest.map id := by
        apply List.map_congr_left
        intro a ha
        have hak : a.1 ≠ k := by
          intro heq
          exact hhead (he ▸ heq ▸ List.mem_map.mpr ⟨a, ha, rfl⟩)
        simp [hak]
      rw [hmap, List.map_id]
    · have hk : k ∈ keysOf rest := by
        rcases List.mem_map.mp h with ⟨e', he', hk'⟩
        rcases List.mem_cons.mp he' with rfl | he'
        · exact absurd hk' he
        · exact List.mem_map.mpr ⟨e', he', hk'⟩
      simp only [mapSet, if_neg he, List.map_cons, if_neg he]
      rw [ih k v hk htail]

theorem keysOf_cons (e : Str × AffiliateLink) (m : List (Str × AffiliateLink)) :
    keysOf (e :: m) = e.1 :: keysOf m := rfl

theorem keysOf_mapSet : ∀ (m : List (Str × AffiliateLink)) (k : Str) (v : AffiliateLink),
    keysOf (mapSet m k v) = if k ∈ keysOf m then keysOf m else keysOf m ++ [k] := by
  intro m
  induction m with
  | nil => intro k v; simp [mapSet, keysOf]
  | cons e rest ih =>
    intro k v
    by_cases he : e.1 = k
    · have hk : k ∈ keysOf (e :: rest) :=
        List.mem_map.mpr ⟨e, List.mem_cons_self e rest, he⟩
      simp only [mapSet, if_pos he, if_pos hk]
      rw [keysOf_cons, keysOf_cons, he]
    · simp only [mapSet, if_neg he]
      by_cases hk : k ∈ keysOf rest
      · have hk' : k ∈ keysOf (e :: rest) := by
          rcases List.mem_map.mp hk with ⟨e', he', hv⟩
          exact List.mem_map.mpr ⟨e', List.mem_cons_of_mem e he', hv⟩
        simp only [if_pos hk']
        rw [keysOf_cons, keysOf_cons, ih k v, if_pos hk]
      · have hk' : k ∉ keysOf (e :: rest) := by
          intro hmem
          rcases List.mem_map.mp hmem with ⟨e', he', hv⟩
          rcases List.mem_cons.mp he' with rfl | he'
          · exact he hv
          · exact hk (List.mem_map.mpr ⟨e', he', hv⟩)
        simp only [if_neg hk']
        rw [keysOf_cons, keysOf_cons, ih k v, if_neg hk]
        rfl

theorem keysOf_mapSet_nodup (m : List (Str × AffiliateLink)) (k : Str) (v : AffiliateLink)
    (hnd : (keysOf m).Nodup) : (keysOf (mapSet m k v)).Nodup := by
  rw [keysOf_mapSet]
  by_cases hk : k ∈ keysOf m
  · rw [if_pos hk]; exact hnd
  · rw [if_neg hk]
    rw [List.nodup_append]
    exact ⟨hnd, List.nodup_singleton _, fun a ha ha' =>
      hk ((List.mem_singleton.mp ha') ▸ ha)⟩

theorem mapSet_val_slug : ∀ (m : List (Str × AffiliateLink)) (k : Str) (v : AffiliateLink),
    (∀ e ∈ m, e.2.slug = e.1) → v.slug = k →
    ∀ e ∈ mapSet m k v, e.2.slug = e.1 := by
  intro m
  induction m with
  | nil =>
    intro k v _ hv e he
    rcases List.mem_singleton.mp he with rfl
    exact hv
  | cons e₀ rest ih =>
    intro k v hm hv e he
    by_cases h₀ : e₀.1 = k
    · simp only [mapSet, if_pos h₀] at he
      rcases List.mem_cons.mp he with rfl | he
      · exact hv
      · exact hm e (List.mem_cons_of_mem e₀ he)
    · simp only [mapSet, if_neg h₀] at he
      rcases List.mem_cons.mp he with rfl | he
      · exact hm _ (List.mem_cons_self _ _)
      · exact ih k v (fun e' he' => hm e' (List.mem_cons_of_mem e₀ he')) hv e he

theorem fold_mapSet_keys_nodup :
    ∀ (batch : List AffiliateLink) (m : List (Str × AffiliateLink)),
      (keysOf m).Nodup →
      (keysOf (batch.foldl (fun m l => mapSet m l.slug l) m)).Nodup := by
  intro batch
  induction batch with
  | nil => intro m h; exact h
  | cons l rest ih =>
    intro m h
    rw [List.foldl_cons]
    exact ih _ (keysOf_mapSet_nodup m l.slug l h)

theorem fold_mapSet_val_slug :
    ∀ (batch : List AffiliateLink) (m : List (Str × AffiliateLink)),
      (∀ e ∈ m, e.2.slug = e.1) →
      ∀ e ∈ batch.foldl (fun m l => mapSet m l.slug l) m, e.2.slug = e.1 := by
  intro batch
  induction batch with
  | nil => intro m h; exact h
  | cons l rest ih =>
    intro m h
    rw [List.foldl_cons]
    exact ih _ (mapSet_val_slug m l.slug l h rfl)

/-- Searching the values list by slug agrees with the keyed lookup when
every stored record's slug equals its key. -/
theorem find_values_getEntry :
    ∀ (m : List (Str × AffiliateLink)) (s : Str),
      (∀ e ∈ m, e.2.slug = e.1) →
      (m.map (fun e => e.2)).find? (fun l => l.slug = s) =
        (getEntry m s).map (fun e => e.2) := by
  intro m
  induction m with
  | nil => intro s _; rfl
  | cons e rest ih =>
    intro s hm
    have he : e.2.slug = e.1 := hm e (List.mem_cons_self e rest)
    by_cases hk : e.1 = s
    · simp only [List.map_cons, List.find?, getEntry]
      rw [decide_eq_true (show e.2.slug = s from he.trans hk),
        decide_eq_true hk]
      rfl
    · simp only [List.map_cons, List.find?, getEntry]
      rw [decide_eq_false (show ¬ (e.2.slug = s) from fun h => hk (he.symm.trans h)),
        decide_eq_false hk]
      exact ih s (fun e' he' => hm e' (List.mem_cons_of_mem e he'))

theorem fold_mapSet_getEntry_none :
    ∀ (batch : List AffiliateLink) (m : List (Str × AffiliateLink)) (s : Str),
      batch.reverse.find? (fun l => l.slug = s) = none →
      getEntry (batch.foldl (fun m l => mapSet m l.slug l) m) s = getEntry m s := by
  intro batch
  induction batch with
  | nil => intro m s _; rfl
  | cons l rest ih =>
    intro m s h
    rw [List.reverse_cons, List.find?_append] at h
    rcases Option.or_eq_none.mp h with ⟨h₁, h₂⟩
    have hls : ¬ (l.slug = s) := by
      intro hl
      simp [List.find?, hl] at h₂
    rw [List.foldl_cons, ih _ s h₁,
      mapSet_get_other m l.slug s l (fun hc => hls hc.symm)]

theorem fold_mapSet_getEntry_some :
    ∀ (batch : List AffiliateLink) (m : List (Str × AffiliateLink)) (s : Str)
      (r : AffiliateLink),
      batch.reverse.find? (fun l => l.slug = s) = some r →
      getEntry (batch.foldl (fun m l => mapSet m l.slug l) m) s = some (s, r) := by
  intro batch
  induction batch with
  | nil => intro m s r h; simp at h
  | cons l rest ih =>
    intro m s r h
    rw [List.reverse_cons, List.find?_append] at h
    rw [List.foldl_cons]
    cases hr : rest.reverse.find? (fun l => l.slug = s) with
    | some r₀ =>
      rw [hr] at h
      simp only [Option.or_some] at h
      rcases Option.some.inj h with rfl
      exact ih _ s r₀ hr
    | none =>
      rw [hr] at h
      simp only [Option.none_or] at h
      have hl : l.slug = s ∧ l = r := by
        by_cases hls : l.slug = s
        · refine ⟨hls, ?_⟩
          simp [List.find?, hls] at h
          exact h
        · simp [List.find?, hls] at h
      rcases hl with ⟨hls, rfl⟩
      rw [fold_mapSet_getEntry_none rest _ s hr]
      rw [← hls]
      exact mapSet_get_same m l.slug l

/-- C9: after a flat-file upsert whose batch writes slug `s` (the last
batch record with that slug being `r`), the persisted record looked up
by `s` is exactly `r` in full — new value wins per whole record, with
no field-level merge. -/
theorem fsUpsertLinks_new_wins (store batch : List AffiliateLink) (s : Str)
    (r : AffiliateLink)
    (hlast : batch.reverse.find? (fun l => l.slug = s) = some r) :
    fsGetLinkBySlug (fsUpsertLinks store batch) s = some r := by
  unfold fsUpsertLinks fsGetLinkBySlug
  have hval : ∀ e ∈ batch.foldl (fun m l => mapSet m l.slug l) (buildSlugMap store),
      e.2.slug = e.1 :=
    fold_mapSet_val_slug batch (buildSlugMap store)
      (fold_mapSet_val_slug store [] (by intro e he; cases he))
  rw [find_values_getEntry _ s hval,
    fold_mapSet_getEntry_some batch (buildSlugMap store) s r hlast]
  rfl

/-- Witness for C9: the spec's own example — persisted `best-blender`
with url `A`, new record with url `B`; after the upsert the persisted
url is `B`. -/
theorem fsUpsertLinks_new_wins_witness :
    fsGetLinkBySlug
        (fsUpsertLinks
          [AffiliateLink.mk (str "best-blender") (str "Best Blender") (str "A") true none]
          [AffiliateLink.mk (str "best-blender") (str "Best Blender") (str "B") true none])
        (str "best-blender") =
      some (AffiliateLink.mk (str "best-blender") (str "Best Blender") (str "B") true none) :=
  fsUpsertLinks_new_wins
    [AffiliateLink.mk (str "best-blender") (str "Best Blender") (str "A") true none]
    [AffiliateLink.mk (str "best-blender") (str "Best Blender") (str "B") true none]
    (str "best-blender") _ (by decide)

theorem build_foldl_eq :
    ∀ (store : List AffiliateLink) (m : List (Str × AffiliateLink)),
      (∀ l ∈ store, l.slug ∉ keysOf m) → (store.map (fun l => l.slug)).Nodup →
      store.foldl (fun m l => mapSet m l.slug l) m =
        m ++ store.map (fun l => (l.slug, l)) := by
  intro store
  induction store with
  | nil => intro m _ _; simp
  | cons l rest ih =>
    intro m hdisj hnd
    rw [List.foldl_cons, mapSet_of_not_mem m l.slug l (hdisj l (List.mem_cons_self l rest))]
    have hnd' : (l.slug ∉ rest.map (fun l => l.slug)) ∧
        (rest.map (fun l => l.slug)).Nodup := by
      simpa [List.nodup_cons] using hnd
    have hd : ∀ l' ∈ rest, l'.slug ∉ keysOf (m ++ [(l.slug, l)]) := by
      intro l' hl' hmem
      have hk : keysOf (m ++ [(l.slug, l)]) = keysOf m ++ [l.slug] := by simp [keysOf]
      rw [hk] at hmem
      rcases List.mem_append.mp hmem with hmem | hmem
      · exact hdisj l' (List.mem_cons_of_mem l hl') hmem
      · rcases List.mem_singleton.mp hmem with heq
        exact hnd'.1 (List.mem_map.mpr ⟨l', hl', heq⟩)
    rw [ih (m ++ [(l.slug, l)]) hd hnd'.2]
    simp

theorem buildSlugMap_eq (store : List AffiliateLink)
    (h : (store.map (fun l => l.slug)).Nodup) :
    buildSlugMap store = store.map (fun l => (l.slug, l)) := by
  unfold buildSlugMap
  rw [build_foldl_eq store [] (by intro l _ hc; simp [keysOf] at hc) h]
  simp

theorem list_any_map {α β : Type} (f : α → β) (p : β → Bool) :
    ∀ l : List α, (l.map f).any p = l.any (fun a => p (f a)) := by
  intro l
  induction l with
  | nil => rfl
  | cons a t ih => simp only [List.map_cons, List.any_cons, ih]

theorem list_any_congr {α : Type} (p q : α → Bool) :
    ∀ l : List α, (∀ a ∈ l, p a = q a) → l.any p = l.any q := by
  intro l
  induction l with
  | nil => intro _; rfl
  | cons a t ih =>
    intro h
    simp only [List.any_cons]
    rw [h a (List.mem_cons_self a t), ih (fun x hx => h x (List.mem_cons_of_mem a hx))]

/-- The shape of the merged map after folding a batch of records into
an existing slug-keyed map: overridden entries stay in place with the
batch value, genuinely new slugs are appended in batch order. -/
theorem fold_mapSet_shape :
    ∀ (batch : List AffiliateLink) (m : List (Str × AffiliateLink)),
      (keysOf m).Nodup → (batch.map (fun l => l.slug)).Nodup →
      batch.foldl (fun m l => mapSet m l.slug l) m =
        m.map (fun e =>
          match batch.find? (fun b => b.slug = e.1) with
          | some b => (e.1, b)
          | none => e) ++
        (batch.filter (fun b => !(m.any (fun e => e.1 = b.slug)))).map
          (fun b => (b.slug, b)) := by
  intro batch
  induction batch with
  | nil =>
    intro m _ _
    simp
  | cons b rest ih =>
    intro m hm hb
    have hbn : (b.slug ∉ rest.map (fun l => l.slug)) ∧
        (rest.map (fun l => l.slug)).Nodup := by
      simpa [List.nodup_cons] using hb
    have hfindrest : rest.find? (fun x => x.slug = b.slug) = none := by
      rw [List.find?_eq_none]
      intro x hx
      simp only [decide_eq_true_eq]
      intro hxs
      exact hbn.1 (List.mem_map.mpr ⟨x, hx, hxs⟩)
    rw [List.foldl_cons]
    by_cases hmem : b.slug ∈ keysOf m
    · rw [mapSet_of_mem_nodup m b.slug b hmem hm]
      have hkeys : keysOf (m.map (fun e => if e.1 = b.slug then (b.slug, b) else e)) =
          keysOf m := by
        unfold keysOf
        rw [List.map_map]
        apply List.map_congr_left
        intro e _
        by_cases h : e.1 = b.slug
        · simp only [Function.comp_apply, if_pos h]
          exact h.symm
        · simp only [Function.comp_apply, if_neg h]
      rw [ih _ (hkeys ▸ hm) hbn.2]
      congr 1
      · rw [List.map_map]
        apply List.map_congr_left
        intro e _
        by_cases h : e.1 = b.slug
        · simp only [Function.comp_apply, if_pos h]
          rw [hfindrest, List.find?_cons_of_pos _ (by simp [h.symm])]
          simp [h]
        · simp only [Function.comp_apply, if_neg h]
          rw [List.find?_cons_of_neg _ (by simp; intro hc; exact h hc.symm)]
      · have hfil : rest.filter
            (fun x => !((m.map (fun e => if e.1 = b.slug then (b.slug, b) else e)).any
              (fun e => e.1 = x.slug))) =
            rest.filter (fun x => !(m.any (fun e => e.1 = x.slug))) := by
          apply List.filter_congr
          intro x _
          congr 1
          rw [List.any_map]
          apply list_any_congr
          intro e _
          by_cases h : e.1 = b.slug
          · simp [Function.comp_apply, h]
          · simp [Function.comp_apply, h]
        rw [hfil]
        have hany : m.any (fun e => e.1 = b.slug) = true := by
          rcases List.mem_map.mp hmem with ⟨e, he, hv⟩
          exact List.any_eq_true.mpr ⟨e, he, by simp [hv]⟩
        rw [List.filter_cons_of_neg (by simp [hany])]
    · rw [mapSet_of_not_mem m b.slug b hmem]
      have hkeys : keysOf (m ++ [(b.slug, b)]) = keysOf m ++ [b.slug] := by
        simp [keysOf]
      have hnodup' : (keysOf (m ++ [(b.slug, b)])).Nodup := by
        rw [hkeys, List.nodup_append]
        exact ⟨hm, by simp, fun a ha ha' => hmem ((List.mem_singleton.mp ha') ▸ ha)⟩
      rw [ih _ hnodup' hbn.2]
      rw [List.map_append]
      have hsing : [((b.slug : Str), b)].map (fun e =>
          match rest.find? (fun x => x.slug = e.1) with
          | some x => (e.1, x)
          | none => e) = [(b.slug, b)] := by
        simp only [List.map_cons, List.map_nil, hfindrest]
      have hmain : m.map (fun e =>
          match rest.find? (fun x => x.slug = e.1) with
          | some x => (e.1, x)
          | none => e) =
          m.map (fun e =>
          match (b :: rest).find? (fun x => x.slug = e.1) with
          | some x => (e.1, x)
          | none => e) := by
        apply List.map_congr_left
        intro e he
        have hne : ¬ (b.slug = e.1) := by
          intro hc
          exact hmem (hc ▸ List.mem_map.mpr ⟨e, he, rfl⟩)
        rw [List.find?_cons_of_neg _ (by simpa using hne)]
      have hfil : rest.filter
          (fun x => !((m ++ [(b.slug, b)]).any (fun e => e.1 = x.slug))) =
          rest.filter (fun x => !(m.any (fun e => e.1 = x.slug))) := by
        apply List.filter_congr
        intro x hx
        congr 1
        rw [List.any_append]
        have : ([((b.slug : Str), b)].any (fun e => e.1 = x.slug)) = false := by
          simp only [List.any_cons, List.any_nil, Bool.or_false]
          simp only [decide_eq_false_iff_not]
          intro hc
          exact hbn.1 (List.mem_map.mpr ⟨x, hx, hc.symm⟩)
        rw [this, Bool.or_false]
      have hanyb : m.any (fun e => e.1 = b.slug) = false := by
        rcases hany : m.any (fun e => e.1 = b.slug) with _ | _
        · rfl
        · rcases List.any_eq_true.mp hany with ⟨e, he, hv⟩
          simp only [decide_eq_true_eq] at hv
          exact absurd (hv ▸ List.mem_map.mpr ⟨e, he, rfl⟩) hmem
      rw [hsing, hmain, hfil, List.filter_cons_of_pos (by simp [hanyb])]
      simp

/-- C10 (frame property): a flat-file upsert leaves every previously
persisted record whose slug is not in the batch unchanged and in place;
the store afterwards is exactly the old records — each overridden by
the batch record of the same slug where one exists — followed by the
genuinely new batch records, in batch order. -/
theorem fsUpsertLinks_frame (store batch : List AffiliateLink)
    (hs : (store.map (fun l => l.slug)).Nodup)
    (hb : (batch.map (fun l => l.slug)).Nodup) :
    fsUpsertLinks store batch =
      store.map (fun l => (batch.find? (fun b => b.slug = l.slug)).getD l) ++
      batch.filter (fun b => !(store.any (fun l => l.slug = b.slug))) := by
  unfold fsUpsertLinks
  rw [buildSlugMap_eq store hs]
  have hkeys : keysOf (store.map (fun l => (l.slug, l))) = store.map (fun l => l.slug) := by
    unfold keysOf
    rw [List.map_map]
    rfl
  rw [fold_mapSet_shape batch _ (by rw [hkeys]; exact hs) hb]
  rw [List.map_append, List.map_map, List.map_map]
  congr 1
  · apply List.map_congr_left
    intro l _
    simp only [Function.comp_apply]
    cases hf : batch.find? (fun b => decide (b.slug = l.slug)) with
    | some b => simp [hf]
    | none => simp [hf]
  · have hfil : (batch.filter
        (fun b => !((store.map (fun l => (l.slug, l))).any (fun e => e.1 = b.slug)))) =
        batch.filter (fun b => !(store.any (fun l => l.slug = b.slug))) := by
      apply List.filter_congr
      intro b _
      congr 1
      rw [list_any_map]
    rw [hfil, List.map_map]
    rw [show ((fun (e : Str × AffiliateLink) => e.2) ∘ fun b => ((b.slug : Str), b)) = id
      from rfl]
    rw [List.map_id]

/-- Witness for C10 at a concrete store and batch: the untouched record
survives unchanged and the new record is appended. -/
theorem fsUpsertLinks_frame_witness :
    fsUpsertLinks
        [AffiliateLink.mk (str "keep-me") (str "Keep") (str "https://k.example") false none,
         AffiliateLink.mk (str "best-blender") (str "Best Blender") (str "A") true none]
        [AffiliateLink.mk (str "best-blender") (str "Best Blender") (str "B") true none,
         AffiliateLink.mk (str "fresh") (str "Fresh") (str "https://f.example") false none] =
      [AffiliateLink.mk (str "keep-me") (str "Keep") (str "https://k.example") false none,
       AffiliateLink.mk (str "best-blender") (str "Best Blender") (str "B") true none,
       AffiliateLink.mk (str "fresh") (str "Fresh") (str "https://f.example") false none] := by
  rw [fsUpsertLinks_frame _ _ (by decide) (by decide)]
  decide

/-- A transformer whose Amazon network is present but disabled in
configuration, with the Amazon plugin registered. -/
def tAmazonDisabled : Transformer :=
  Transformer.mk
    (LinksmithConfig.mk (TrackingConfig.mk (str "/link/"))
      [(str "amazon", NetworkConfig.mk false (some (str "donkitchencom-20")) none)])
    [amazonPlugin slugifyId]

def linkAmazonDetected : ExtractedLink :=
  ExtractedLink.mk (str "https://www.amazon.com/dp/B000A6PPOK") (str "Widget")
    (str "post.md") 1 1 true (some (str "amazon"))

/-- Witness for C4: an Amazon-detected occurrence with the network
disabled still gets an entry, whose stored URL is the raw URL. -/
theorem generateLinkMap_disabled_network_keeps_url_witness :
    ∃ e, ((str "https://www.amazon.com/dp/B000A6PPOK"), e) ∈
        tAmazonDisabled.generateLinkMap slugifyId [linkAmazonDetected] 0 ∧
      e.url = str "https://www.amazon.com/dp/B000A6PPOK" :=
  (generateLinkMap_disabled_network_keeps_url tAmazonDisabled slugifyId
    [linkAmazonDetected] 0 (str "https://www.amazon.com/dp/B000A6PPOK")
    (by decide) (by decide)).1

/-!
## Rewrite-pass theory (C5, C6, C7) -/

theorem insertByPos_perm (a : ExtractedLink) :
    ∀ l : List ExtractedLink, (insertByPos a l).Perm (a :: l) := by
  intro l
  induction l with
  | nil => exact List.Perm.refl _
  | cons b bs ih =>
    unfold insertByPos
    by_cases h : posDescLE a b
    · rw [if_pos h]
    · rw [if_neg h]
      exact List.Perm.trans (List.Perm.cons b ih) (List.Perm.swap a b bs)

theorem sortByPosDesc_perm :
    ∀ links : List ExtractedLink, (sortByPosDesc links).Perm links := by
  intro links
  induction links with
  | nil => exact List.Perm.refl _
  | cons l rest ih =>
    unfold sortByPosDesc
    rw [List.foldr_cons]
    exact List.Perm.trans (insertByPos_perm l _) (List.Perm.cons l ih)

/-- The tracking URL the rewrite loop builds for an occurrence. -/
def trackingOf (t : Transformer) (slugifyF : SlugifyFn)
    (linkMap : List (Str × AffiliateLink)) (now : Nat) (l : ExtractedLink) : Str :=
  t.config.tracking.baseUrl ++ findOrGenerateSlug t slugifyF now l linkMap

theorem transformStep_skip (t : Transformer) (slugifyF : SlugifyFn)
    (linkMap : List (Str × AffiliateLink)) (now : Nat) (st : Str × List Change)
    (l : ExtractedLink) (hhttp : ¬ isHttp l.url = true) :
    transformStep t slugifyF linkMap now st l = st := by
  simp [transformStep, hhttp]

theorem transformStep_run (t : Transformer) (slugifyF : SlugifyFn)
    (linkMap : List (Str × AffiliateLink)) (now : Nat) (st : Str × List Change)
    (l : ExtractedLink) (hhttp : isHttp l.url = true) :
    transformStep t slugifyF linkMap now st l =
      if replaceAll st.1 (pat l.url) (pat (trackingOf t slugifyF linkMap now l)) ≠ st.1 then
        (replaceAll st.1 (pat l.url) (pat (trackingOf t slugifyF linkMap now l)),
         st.2 ++ [Change.mk l.url (findOrGenerateSlug t slugifyF now l linkMap)
           (trackingOf t slugifyF linkMap now l)])
      else
        (replaceAll st.1 (pat l.url) (pat (trackingOf t slugifyF linkMap now l)), st.2) := by
  simp [transformStep, hhttp, trackingOf]

/-- Apply the tracking substitution for exactly the URLs in `S`. -/
def rewriteLnk (trk : Str → Str) (S : List Str) : MDPiece → MDPiece
  | .seg s => .seg s
  | .lnk u => if u ∈ S then .lnk (trk u) else .lnk u

theorem wfPieces_rewriteLnk (trk : Str → Str) (S : List Str) (ps : List MDPiece)
    (hwf : wfPieces ps) (hS : ∀ u ∈ S, cleanUrl (trk u)) :
    wfPieces (ps.map (rewriteLnk trk S)) := by
  intro p hp
  rcases List.mem_map.mp hp with ⟨q, hq, rfl⟩
  cases q with
  | seg s => exact hwf (MDPiece.seg s) hq
  | lnk u =>
    by_cases hu : u ∈ S
    · simp only [rewriteLnk, if_pos hu]
      exact hS u hu
    · simp only [rewriteLnk, if_neg hu]
      exact hwf (MDPiece.lnk u) hq

/-- A URL processed earlier leaves no matching link piece behind. -/
theorem lnk_not_mem_rewriteLnk (trk : Str → Str) (S : List Str) (ps : List MDPiece)
    (w : Str) (hw : w ∈ S)
    (hfreshS : ∀ u ∈ S, ∀ v, MDPiece.lnk v ∈ ps → trk u ≠ v)
    (hwps : MDPiece.lnk w ∈ ps) :
    MDPiece.lnk w ∉ ps.map (rewriteLnk trk S) := by
  intro hmem
  rcases List.mem_map.mp hmem with ⟨q, hq, hqe⟩
  cases q with
  | seg s => simp [rewriteLnk] at hqe
  | lnk v =>
    by_cases hv : v ∈ S
    · simp only [rewriteLnk, if_pos hv, MDPiece.lnk.injEq] at hqe
      exact hfreshS v hv w hwps hqe
    · simp only [rewriteLnk, if_neg hv, MDPiece.lnk.injEq] at hqe
      exact hv (hqe ▸ hw)

/-- An unprocessed URL with a link piece still has one in the rewritten
document. -/
theorem lnk_mem_rewriteLnk (trk : Str → Str) (S : List Str) (ps : List MDPiece)
    (w : Str) (hw : w ∉ S) (hwps : MDPiece.lnk w ∈ ps) :
    MDPiece.lnk w ∈ ps.map (rewriteLnk trk S) := by
  have h : rewriteLnk trk S (MDPiece.lnk w) = MDPiece.lnk w := by
    simp [rewriteLnk, hw]
  exact List.mem_map.mpr ⟨MDPiece.lnk w, hwps, h⟩

/-- Substituting one more URL merges into the accumulated rewrite set. -/
theorem substPiece_rewriteLnk (trk : Str → Str) (S : List Str) (ps : List MDPiece)
    (w : Str) (hw : w ∉ S)
    (hfreshS : ∀ u ∈ S, ∀ v, MDPiece.lnk v ∈ ps → trk u ≠ v)
    (hwps : MDPiece.lnk w ∈ ps) :
    (ps.map (rewriteLnk trk S)).map (substPiece w (trk w)) =
      ps.map (rewriteLnk trk (S ++ [w])) := by
  rw [List.map_map]
  apply List.map_congr_left
  intro p hp
  cases p with
  | seg s => rfl
  | lnk v =>
    by_cases hv : v ∈ S
    · have hne : trk v ≠ w := hfreshS v hv w hwps
      simp only [Function.comp_apply, rewriteLnk, if_pos hv, substPiece, if_neg hne,
        if_pos (List.mem_append.mpr (Or.inl hv))]
    · by_cases hvw : v = w
      · subst hvw
        have hmem : v ∈ S ++ [v] := List.mem_append.mpr (Or.inr (List.mem_singleton.mpr rfl))
        simp [Function.comp_apply, rewriteLnk, hv, substPiece, hmem]
      · have hv' : v ∉ S ++ [w] := by
          intro hm
          rcases List.mem_append.mp hm with hm | hm
          · exact hv hm
          · exact hvw (List.mem_singleton.mp hm)
        simp only [Function.comp_apply, rewriteLnk, if_neg hv, substPiece, if_neg hvw,
          if_neg hv']

/-- Main engine lemma for the rewrite pass over a structured document:
processing the occurrence list rewrites exactly the link pieces of the
processed qualifying URLs — all occurrences of a URL at its first
processing — and records one change entry per distinct qualifying URL
encountered. -/
theorem transform_fold_pieces
    (t : Transformer) (slugifyF : SlugifyFn) (linkMap : List (Str × AffiliateLink))
    (now : Nat) (ps : List MDPiece) (trk : Str → Str) (hwf : wfPieces ps) :
    ∀ (rem : List ExtractedLink) (S : List Str) (cs : List Change),
      S.Nodup →
      (∀ u ∈ S, MDPiece.lnk u ∈ ps ∧ cleanUrl (trk u)) →
      (∀ u ∈ S, ∀ v, MDPiece.lnk v ∈ ps → trk u ≠ v) →
      (∀ l ∈ rem, isHttp l.url = true →
        MDPiece.lnk l.url ∈ ps ∧ cleanUrl l.url ∧
        trackingOf t slugifyF linkMap now l = trk l.url ∧
        cleanUrl (trk l.url) ∧ (∀ v, MDPiece.lnk v ∈ ps → trk l.url ≠ v)) →
      ∃ Sf : List Str,
        Sf.Nodup ∧
        (∀ u, u ∈ Sf ↔ (u ∈ S ∨ ∃ l ∈ rem, isHttp l.url = true ∧ l.url = u)) ∧
        (rem.foldl (transformStep t slugifyF linkMap now)
            (render (ps.map (rewriteLnk trk S)), cs)).1 =
          render (ps.map (rewriteLnk trk Sf)) ∧
        (rem.foldl (transformStep t slugifyF linkMap now)
            (render (ps.map (rewriteLnk trk S)), cs)).2.length + S.length =
          cs.length + Sf.length := by
  intro rem
  induction rem with
  | nil =>
    intro S cs hnd hS₂ hfreshS _
    refine ⟨S, hnd, ?_, rfl, by simp⟩
    intro u
    simp
  | cons l rest ih =>
    intro S cs hnd hS₂ hfreshS hrem
    by_cases hhttp : isHttp l.url
    · obtain ⟨hpiece, hclean, htrkeq, htrkclean, hfresh⟩ :=
        hrem l (List.mem_cons_self l rest) hhttp
      have hwfmapped : wfPieces (ps.map (rewriteLnk trk S)) :=
        wfPieces_rewriteLnk trk S ps hwf (fun u hu => (hS₂ u hu).2)
      have hrepl : replaceAll (render (ps.map (rewriteLnk trk S))) (pat l.url)
          (pat (trackingOf t slugifyF linkMap now l)) =
          render ((ps.map (rewriteLnk trk S)).map (substPiece l.url (trk l.url))) := by
        rw [htrkeq]
        exact replaceAll_render l.url (trk l.url) hclean _ hwfmapped
      rw [List.foldl_cons, transformStep_run t slugifyF linkMap now _ l hhttp]
      by_cases hmem : l.url ∈ S
      · have hnone : MDPiece.lnk l.url ∉ ps.map (rewriteLnk trk S) :=
          lnk_not_mem_rewriteLnk trk S ps l.url hmem hfreshS hpiece
        have haft : replaceAll (render (ps.map (rewriteLnk trk S))) (pat l.url)
            (pat (trackingOf t slugifyF linkMap now l)) =
            render (ps.map (rewriteLnk trk S)) := by
          rw [hrepl, map_substPiece_eq_self l.url (trk l.url) _ hnone]
        rw [if_neg (by
          intro hcon
          exact hcon haft)]
        rw [haft]
        rcases ih S cs hnd hS₂ hfreshS
          (fun l' hl' => hrem l' (List.mem_cons_of_mem l hl')) with
          ⟨Sf, h1, h2, h3, h4⟩
        refine ⟨Sf, h1, ?_, h3, h4⟩
        intro u
        rw [h2 u]
        constructor
        · rintro (hu | ⟨l', hl', hh, hu⟩)
          · exact Or.inl hu
          · exact Or.inr ⟨l', List.mem_cons_of_mem l hl', hh, hu⟩
        · rintro (hu | ⟨l', hl', hh, hu⟩)
          · exact Or.inl hu
          · rcases List.mem_cons.mp hl' with rfl | hl'
            · exact Or.inl (hu ▸ hmem)
            · exact Or.inr ⟨l', hl', hh, hu⟩
      · have hmemmapped : MDPiece.lnk l.url ∈ ps.map (rewriteLnk trk S) :=
          lnk_mem_rewriteLnk trk S ps l.url hmem hpiece
        have htrkne : trk l.url ≠ l.url := hfresh l.url hpiece
        have hne : render ((ps.map (rewriteLnk trk S)).map (substPiece l.url (trk l.url))) ≠
            render (ps.map (rewriteLnk trk S)) :=
          render_substPiece_ne l.url (trk l.url) htrkclean.1 htrkne _ hwfmapped hmemmapped
        rw [if_pos (by rw [hrepl]; exact hne)]
        rw [hrepl, substPiece_rewriteLnk trk S ps l.url hmem hfreshS hpiece]
        have hnd' : (S ++ [l.url]).Nodup := by
          rw [List.nodup_append]
          exact ⟨hnd, by simp, fun a ha ha' => hmem ((List.mem_singleton.mp ha') ▸ ha)⟩
        have hS₂' : ∀ u ∈ S ++ [l.url], MDPiece.lnk u ∈ ps ∧ cleanUrl (trk u) := by
          intro u hu
          rcases List.mem_append.mp hu with hu | hu
          · exact hS₂ u hu
          · rcases List.mem_singleton.mp hu with rfl
            exact ⟨hpiece, htrkclean⟩
        have hfreshS' : ∀ u ∈ S ++ [l.url], ∀ v, MDPiece.lnk v ∈ ps → trk u ≠ v := by
          intro u hu
          rcases List.mem_append.mp hu with hu | hu
          · exact hfreshS u hu
          · rcases List.mem_singleton.mp hu with rfl
            exact hfresh
        rcases ih (S ++ [l.url])
          (cs ++ [Change.mk l.url (findOrGenerateSlug t slugifyF now l linkMap)
            (trackingOf t slugifyF linkMap now l)]) hnd' hS₂' hfreshS'
          (fun l' hl' => hrem l' (List.mem_cons_of_mem l hl')) with
          ⟨Sf, h1, h2, h3, h4⟩
        refine ⟨Sf, h1, ?_, h3, ?_⟩
        · intro u
          rw [h2 u]
          constructor
          · rintro (hu | ⟨l', hl', hh, hu⟩)
            · rcases List.mem_append.mp hu with hu | hu
              · exact Or.inl hu
              · rcases List.mem_singleton.mp hu with rfl
                exact Or.inr ⟨l, List.mem_cons_self l rest, hhttp, rfl⟩
            · exact Or.inr ⟨l', List.mem_cons_of_mem l hl', hh, hu⟩
          · rintro (hu | ⟨l', hl', hh, hu⟩)
            · exact Or.inl (List.mem_append.mpr (Or.inl hu))
            · rcases List.mem_cons.mp hl' with rfl | hl'
              · exact Or.inl (List.mem_append.mpr (Or.inr (List.mem_singleton.mpr hu.symm)))
              · exact Or.inr ⟨l', hl', hh, hu⟩
        · rw [List.length_append] at h4
          simp only [List.length_append, List.length_cons, List.length_nil] at h4 ⊢
          omega
    · rw [List.foldl_cons, transformStep_skip t slugifyF linkMap now _ l hhttp]
      rcases ih S cs hnd hS₂ hfreshS
        (fun l' hl' => hrem l' (List.mem_cons_of_mem l hl')) with
        ⟨Sf, h1, h2, h3, h4⟩
      refine ⟨Sf, h1, ?_, h3, h4⟩
      intro u
      rw [h2 u]
      constructor
      · rintro (hu | ⟨l', hl', hh, hu⟩)
        · exact Or.inl hu
        · exact Or.inr ⟨l', List.mem_cons_of_mem l hl', hh, hu⟩
      · rintro (hu | ⟨l', hl', hh, hu⟩)
        · exact Or.inl hu
        · rcases List.mem_cons.mp hl' with rfl | hl'
          · exact absurd hh hhttp
          · exact Or.inr ⟨l', hl', hh, hu⟩

/-- C8: the Amazon plugin's `convert` on the spec's example URL, with
tag `donkitchencom-20`, yields exactly the clean `/dp/` URL with the
tag; the enabled-network `Converter` path produces the same value. -/
theorem amazonConvert_example :
    (amazonPlugin slugifyId).convert
        (str "https://www.amazon.com/gp/product/B000A6PPOK/ref=as_li_ss_tl?camp=1789&creative=390957&tag=donkitchencom-20")
        (NetworkOptions.mk (some (str "donkitchencom-20")) true) =
      str "https://www.amazon.com/dp/B000A6PPOK?tag=donkitchencom-20" ∧
    converterConvert
        (LinksmithConfig.mk (TrackingConfig.mk (str "/link/"))
          [(str "amazon", NetworkConfig.mk true (some (str "donkitchencom-20")) none)])
        [amazonPlugin slugifyId]
        (ExtractedLink.mk
          (str "https://www.amazon.com/gp/product/B000A6PPOK/ref=as_li_ss_tl?camp=1789&creative=390957&tag=donkitchencom-20")
          (str "Blender") (str "post.md") 1 1 true (some (str "amazon"))) =
      some (ConversionResult.mk
        (str "https://www.amazon.com/gp/product/B000A6PPOK/ref=as_li_ss_tl?camp=1789&creative=390957&tag=donkitchencom-20")
        (str "https://www.amazon.com/dp/B000A6PPOK?tag=donkitchencom-20")
        (str "amazon") (some (str "donkitchencom-20"))) := by
  constructor
  · set_option maxRecDepth 8192 in decide
  · set_option maxRecDepth 8192 in decide

theorem transform_fold_changes_mono (t : Transformer) (slugifyF : SlugifyFn)
    (linkMap : List (Str × AffiliateLink)) (now : Nat) :
    ∀ (links : List ExtractedLink) (st : Str × List Change),
      ∃ tail, (links.foldl (transformStep t slugifyF linkMap now) st).2 = st.2 ++ tail := by
  intro links
  induction links with
  | nil => intro st; exact ⟨[], by simp⟩
  | cons l rest ih =>
    intro st
    rw [List.foldl_cons]
    by_cases hhttp : isHttp l.url
    · rw [transformStep_run t slugifyF linkMap now st l hhttp]
      by_cases hch : replaceAll st.1 (pat l.url)
          (pat (trackingOf t slugifyF linkMap now l)) ≠ st.1
      · rw [if_pos hch]
        rcases ih ((replaceAll st.1 (pat l.url) (pat (trackingOf t slugifyF linkMap now l)),
          st.2 ++ [Change.mk l.url (findOrGenerateSlug t slugifyF now l linkMap)
            (trackingOf t slugifyF linkMap now l)])) with ⟨tail, htail⟩
        refine ⟨[Change.mk l.url (findOrGenerateSlug t slugifyF now l linkMap)
          (trackingOf t slugifyF linkMap now l)] ++ tail, ?_⟩
        rw [htail]
        simp
      · rw [if_neg hch]
        exact ih _
    · rw [transformStep_skip t slugifyF linkMap now st l hhttp]
      exact ih st

theorem transform_fold_unchanged_of_no_changes (t : Transformer) (slugifyF : SlugifyFn)
    (linkMap : List (Str × AffiliateLink)) (now : Nat) :
    ∀ (links : List ExtractedLink) (st : Str × List Change),
      (links.foldl (transformStep t slugifyF linkMap now) st).2 = st.2 →
      (links.foldl (transformStep t slugifyF linkMap now) st).1 = st.1 := by
  intro links
  induction links with
  | nil => intro st _; rfl
  | cons l rest ih =>
    intro st h
    rw [List.foldl_cons] at h ⊢
    by_cases hhttp : isHttp l.url
    · rw [transformStep_run t slugifyF linkMap now st l hhttp] at h ⊢
      by_cases hch : replaceAll st.1 (pat l.url)
          (pat (trackingOf t slugifyF linkMap now l)) ≠ st.1
      · rw [if_pos hch] at h
        rcases transform_fold_changes_mono t slugifyF linkMap now rest
          ((replaceAll st.1 (pat l.url) (pat (trackingOf t slugifyF linkMap now l)),
            st.2 ++ [Change.mk l.url (findOrGenerateSlug t slugifyF now l linkMap)
              (trackingOf t slugifyF linkMap now l)])) with ⟨tail, htail⟩
        rw [htail] at h
        have : st.2.length = st.2.length + 1 + tail.length := by
          have := congrArg List.length h
          simpa using this
        omega
      · rw [if_neg hch] at h ⊢
        push_neg at hch
        rw [ih _ h, hch]
    · rw [transformStep_skip t slugifyF linkMap now st l hhttp] at h ⊢
      exact ih st h

theorem transform_fold_absent_patterns (t : Transformer) (slugifyF : SlugifyFn)
    (linkMap : List (Str × AffiliateLink)) (now : Nat) :
    ∀ (links : List ExtractedLink) (content : Str) (cs : List Change),
      (∀ l ∈ links, isHttp l.url = true → occursb content (pat l.url) = false) →
      links.foldl (transformStep t slugifyF linkMap now) (content, cs) = (content, cs) := by
  intro links
  induction links with
  | nil => intro content cs _; rfl
  | cons l rest ih =>
    intro content cs h
    rw [List.foldl_cons]
    by_cases hhttp : isHttp l.url
    · rw [transformStep_run t slugifyF linkMap now (content, cs) l hhttp]
      have habs : occursb content (pat l.url) = false :=
        h l (List.mem_cons_self l rest) hhttp
      have heq : replaceAll content (pat l.url)
          (pat (trackingOf t slugifyF linkMap now l)) = content :=
        replaceAll_of_occursb_false content (pat l.url) _ habs
      rw [if_neg (by simpa [heq] using fun hc => hc)]
      simp only [heq]
      exact ih content cs (fun l' hl' => h l' (List.mem_cons_of_mem l hl'))
    · rw [transformStep_skip t slugifyF linkMap now (content, cs) l hhttp]
      exact ih content cs (fun l' hl' => h l' (List.mem_cons_of_mem l hl'))

/-- C7: the reported count always equals the number of recorded change
entries; a run that records no change entry leaves the document text
untouched; and when no processed URL's `](url)` pattern occurs in the
document — for example when URLs appear only inside raw HTML
attributes — the rewrite is a silent no-op: original text unchanged and
an empty change list, with no error (the function is total). -/
theorem transformFile_change_accounting (t : Transformer) (slugifyF : SlugifyFn)
    (fp content : Str) (links : List ExtractedLink)
    (linkMap : List (Str × AffiliateLink)) (now : Nat) :
    (t.transformFile slugifyF fp content links linkMap now).linksTransformed =
      (t.transformFile slugifyF fp content links linkMap now).changes.length ∧
    ((t.transformFile slugifyF fp content links linkMap now).changes = [] →
      (t.transformFile slugifyF fp content links linkMap now).transformedContent = content) ∧
    ((∀ l ∈ links, isHttp l.url = true → occursb content (pat l.url) = false) →
      (t.transformFile slugifyF fp content links linkMap now).transformedContent = content ∧
      (t.transformFile slugifyF fp content links linkMap now).changes = []) := by
  refine ⟨rfl, ?_, ?_⟩
  · intro h
    exact transform_fold_unchanged_of_no_changes t slugifyF linkMap now
      (sortByPosDesc links) (content, []) h
  · intro h
    have hs : ∀ l ∈ sortByPosDesc links, isHttp l.url = true →
        occursb content (pat l.url) = false := by
      intro l hl
      exact h l ((sortByPosDesc_perm links).mem_iff.mp hl)
    have := transform_fold_absent_patterns t slugifyF linkMap now
      (sortByPosDesc links) content [] hs
    unfold Transformer.transformFile
    rw [this]
    exact ⟨rfl, rfl⟩

/-- Witness for C7: a document whose only URL appears inside a raw HTML
attribute is returned untouched with no change entries. -/
theorem transformFile_change_accounting_witness :
    (tPlain.transformFile slugifyId (str "post.md")
        (str "<p><a href=\x22https://x.example/p\x22>x</a></p>")
        [ExtractedLink.mk (str "https://x.example/p") (str "x") (str "post.md") 1 4
          false none] [] 0).linksTransformed =
      (tPlain.transformFile slugifyId (str "post.md")
        (str "<p><a href=\x22https://x.example/p\x22>x</a></p>")
        [ExtractedLink.mk (str "https://x.example/p") (str "x") (str "post.md") 1 4
          false none] [] 0).changes.length ∧
    (tPlain.transformFile slugifyId (str "post.md")
        (str "<p><a href=\x22https://x.example/p\x22>x</a></p>")
        [ExtractedLink.mk (str "https://x.example/p") (str "x") (str "post.md") 1 4
          false none] [] 0).transformedContent =
      str "<p><a href=\x22https://x.example/p\x22>x</a></p>" ∧
    (tPlain.transformFile slugifyId (str "post.md")
        (str "<p><a href=\x22https://x.example/p\x22>x</a></p>")
        [ExtractedLink.mk (str "https://x.example/p") (str "x") (str "post.md") 1 4
          false none] [] 0).changes = [] := by
  refine ⟨(transformFile_change_accounting tPlain slugifyId (str "post.md") _ _ [] 0).1,
    ?_, ?_⟩
  · exact ((transformFile_change_accounting tPlain slugifyId (str "post.md") _ _ [] 0).2.2
      (by decide)).1
  · exact ((transformFile_change_accounting tPlain slugifyId (str "post.md") _ _ [] 0).2.2
      (by decide)).2

/-- Counterexample to C6 as stated: a URL occurring (and rewritten) at
two distinct positions contributes a single change entry, not two —
the first processing's global substitution rewrites both positions at
once, so the second processing matches nothing. -/
theorem transformFile_repeated_url_single_entry :
    (tPlain.transformFile slugifyId (str "post.md")
        (str "[a](http://x) [b](http://x)")
        [ExtractedLink.mk (str "http://x") (str "a") (str "post.md") 1 1 false none,
         ExtractedLink.mk (str "http://x") (str "b") (str "post.md") 1 15 false none]
        [(str "http://x", AffiliateLink.mk (str "x") (str "a") (str "http://x") false none)]
        0).changes.length = 1 ∧
    (tPlain.transformFile slugifyId (str "post.md")
        (str "[a](http://x) [b](http://x)")
        [ExtractedLink.mk (str "http://x") (str "a") (str "post.md") 1 1 false none,
         ExtractedLink.mk (str "http://x") (str "b") (str "post.md") 1 15 false none]
        [(str "http://x", AffiliateLink.mk (str "x") (str "a") (str "http://x") false none)]
        0).transformedContent = str "[a](/link/x) [b](/link/x)" := by
  constructor
  · decide
  · decide

def dedupStrAux (seen : List Str) : List Str → List Str
  | [] => []
  | u :: us =>
    if u ∈ seen then dedupStrAux seen us
    else u :: dedupStrAux (seen ++ [u]) us

/-- First-occurrence deduplication of a URL list. -/
def dedupStr (l : List Str) : List Str := dedupStrAux [] l

theorem dedupStrAux_not_seen :
    ∀ (l : List Str) (seen : List Str) (u : Str),
      u ∈ dedupStrAux seen l → u ∉ seen := by
  intro l
  induction l with
  | nil => intro seen u hu; cases hu
  | cons v vs ih =>
    intro seen u hu
    by_cases hv : v ∈ seen
    · simp only [dedupStrAux, if_pos hv] at hu
      exact ih seen u hu
    · simp only [dedupStrAux, if_neg hv] at hu
      rcases List.mem_cons.mp hu with rfl | hu
      · exact hv
      · intro hs
        exact ih (seen ++ [v]) u hu (List.mem_append.mpr (Or.inl hs))

theorem dedupStrAux_nodup :
    ∀ (l : List Str) (seen : List Str), (dedupStrAux seen l).Nodup := by
  intro l
  induction l with
  | nil => intro seen; simp [dedupStrAux]
  | cons v vs ih =>
    intro seen
    by_cases hv : v ∈ seen
    · simp only [dedupStrAux, if_pos hv]
      exact ih seen
    · simp only [dedupStrAux, if_neg hv]
      refine List.nodup_cons.mpr ⟨?_, ih (seen ++ [v])⟩
      intro hmem
      exact dedupStrAux_not_seen vs (seen ++ [v]) v hmem
        (List.mem_append.mpr (Or.inr (List.mem_singleton.mpr rfl)))

theorem dedupStrAux_mem :
    ∀ (l : List Str) (seen : List Str) (u : Str),
      u ∈ dedupStrAux seen l ↔ (u ∉ seen ∧ u ∈ l) := by
  intro l
  induction l with
  | nil => intro seen u; simp [dedupStrAux]
  | cons v vs ih =>
    intro seen u
    by_cases hv : v ∈ seen
    · simp only [dedupStrAux, if_pos hv]
      rw [ih seen u]
      constructor
      · rintro ⟨hns, hm⟩
        exact ⟨hns, List.mem_cons_of_mem v hm⟩
      · rintro ⟨hns, hm⟩
        rcases List.mem_cons.mp hm with rfl | hm
        · exact absurd hv hns
        · exact ⟨hns, hm⟩
    · simp only [dedupStrAux, if_neg hv, List.mem_cons]
      constructor
      · rintro (rfl | hu)
        · exact ⟨hv, Or.inl rfl⟩
        · rcases (ih (seen ++ [v]) u).mp hu with ⟨hns, hm⟩
          exact ⟨fun hs => hns (List.mem_append.mpr (Or.inl hs)), Or.inr hm⟩
      · rintro ⟨hns, rfl | hm⟩
        · exact Or.inl rfl
        · by_cases huv : u = v
          · exact Or.inl huv
          · refine Or.inr ((ih (seen ++ [v]) u).mpr ⟨?_, hm⟩)
            intro hs
            rcases List.mem_append.mp hs with hs | hs
            · exact hns hs
            · exact huv (List.mem_singleton.mp hs)

theorem length_eq_of_nodup_mem_iff (A B : List Str) (hA : A.Nodup) (hB : B.Nodup)
    (h : ∀ u, u ∈ A ↔ u ∈ B) : A.length = B.length := by
  have hfs : A.toFinset = B.toFinset := by
    apply Finset.ext
    intro u
    simp only [List.mem_toFinset]
    exact h u
  calc A.length = A.toFinset.card := (List.toFinset_card_of_nodup hA).symm
    _ = B.toFinset.card := by rw [hfs]
    _ = B.length := List.toFinset_card_of_nodup hB

/-- Canonical tracking substitution determined by an occurrence list:
a URL maps to the tracking URL of its first qualifying occurrence. -/
def trkCanon (t : Transformer) (slugifyF : SlugifyFn)
    (linkMap : List (Str × AffiliateLink)) (now : Nat)
    (links : List ExtractedLink) (u : Str) : Str :=
  match links.find? (fun l => isHttp l.url && decide (l.url = u)) with
  | some l => trackingOf t slugifyF linkMap now l
  | none => u

/-- The expected effect of the rewrite pass on one document piece:
link pieces of qualifying URLs become their tracking `](...)` tails,
everything else is byte-for-byte unchanged. -/
def rewriteByLinks (t : Transformer) (slugifyF : SlugifyFn)
    (linkMap : List (Str × AffiliateLink)) (now : Nat)
    (links : List ExtractedLink) : MDPiece → MDPiece
  | .seg s => .seg s
  | .lnk u =>
    match links.find? (fun l => isHttp l.url && decide (l.url = u)) with
    | some l => MDPiece.lnk (trackingOf t slugifyF linkMap now l)
    | none => MDPiece.lnk u

theorem rewriteLnk_nil (trk : Str → Str) (ps : List MDPiece) :
    ps.map (rewriteLnk trk []) = ps := by
  apply List.map_congr_left ?_ |>.trans (List.map_id ps)
  intro p _
  cases p with
  | seg s => rfl
  | lnk u => simp [rewriteLnk]

/-- Core theorem for the rewrite pass over a structured document. -/
theorem transformFile_pieces_core
    (t : Transformer) (slugifyF : SlugifyFn) (fp : Str) (now : Nat)
    (ps : List MDPiece) (links : List ExtractedLink)
    (linkMap : List (Str × AffiliateLink))
    (hwf : wfPieces ps)
    (hext : ∀ l ∈ links, isHttp l.url = true →
      MDPiece.lnk l.url ∈ ps ∧ cleanUrl l.url ∧
      cleanUrl (trackingOf t slugifyF linkMap now l) ∧
      MDPiece.lnk (trackingOf t slugifyF linkMap now l) ∉ ps)
    (hcons : ∀ l ∈ links, ∀ l' ∈ links, l.url = l'.url →
      trackingOf t slugifyF linkMap now l = trackingOf t slugifyF linkMap now l') :
    ∃ Sf : List Str, Sf.Nodup ∧
      (∀ u, u ∈ Sf ↔ ∃ l ∈ links, isHttp l.url = true ∧ l.url = u) ∧
      (t.transformFile slugifyF fp (render ps) links linkMap now).transformedContent =
        render (ps.map (rewriteByLinks t slugifyF linkMap now links)) ∧
      (t.transformFile slugifyF fp (render ps) links linkMap now).changes.length =
        Sf.length ∧
      (t.transformFile slugifyF fp (render ps) links linkMap now).linksTransformed =
        Sf.length := by
  have hmem_sorted : ∀ l, l ∈ sortByPosDesc links ↔ l ∈ links :=
    fun l => (sortByPosDesc_perm links).mem_iff
  have hrem : ∀ l ∈ sortByPosDesc links, isHttp l.url = true →
      MDPiece.lnk l.url ∈ ps ∧ cleanUrl l.url ∧
      trackingOf t slugifyF linkMap now l =
        trkCanon t slugifyF linkMap now links l.url ∧
      cleanUrl (trkCanon t slugifyF linkMap now links l.url) ∧
      (∀ v, MDPiece.lnk v ∈ ps → trkCanon t slugifyF linkMap now links l.url ≠ v) := by
    intro l hl hhttp
    have hl' : l ∈ links := (hmem_sorted l).mp hl
    obtain ⟨hp, hc, htc, hfr⟩ := hext l hl' hhttp
    cases hf : links.find? (fun x => isHttp x.url && decide (x.url = l.url)) with
    | none =>
      exfalso
      have := List.find?_eq_none.mp hf l hl'
      simp [hhttp] at this
    | some l₀ =>
      have hl₀mem : l₀ ∈ links := List.mem_of_find?_eq_some hf
      have hl₀p := List.find?_some hf
      simp only [Bool.and_eq_true, decide_eq_true_eq] at hl₀p
      have htrk₀ : trackingOf t slugifyF linkMap now l =
          trackingOf t slugifyF linkMap now l₀ :=
        hcons l hl' l₀ hl₀mem hl₀p.2.symm
      have hcanon : trkCanon t slugifyF linkMap now links l.url =
          trackingOf t slugifyF linkMap now l := by
        unfold trkCanon
        rw [hf, htrk₀]
      refine ⟨hp, hc, hcanon.symm, ?_, ?_⟩
      · rw [hcanon]
        exact htc
      · intro v hv hne
        rw [hcanon] at hne
        exact hfr (hne ▸ hv)
  have hinit := rewriteLnk_nil (trkCanon t slugifyF linkMap now links) ps
  rcases transform_fold_pieces t slugifyF linkMap now ps
    (trkCanon t slugifyF linkMap now links) hwf (sortByPosDesc links) [] []
    (by simp) (by simp) (by simp) hrem with ⟨Sf, h1, h2, h3, h4⟩
  rw [hinit] at h3 h4
  have h2' : ∀ u, u ∈ Sf ↔ ∃ l ∈ links, isHttp l.url = true ∧ l.url = u := by
    intro u
    rw [h2 u]
    constructor
    · rintro (hu | ⟨l, hl, hh, hu⟩)
      · cases hu
      · exact ⟨l, (hmem_sorted l).mp hl, hh, hu⟩
    · rintro ⟨l, hl, hh, hu⟩
      exact Or.inr ⟨l, (hmem_sorted l).mpr hl, hh, hu⟩
  have hmapeq : ps.map (rewriteLnk (trkCanon t slugifyF linkMap now links) Sf) =
      ps.map (rewriteByLinks t slugifyF linkMap now links) := by
    apply List.map_congr_left
    intro p _
    cases p with
    | seg s => rfl
    | lnk u =>
      cases hf : links.find? (fun x => isHttp x.url && decide (x.url = u)) with
      | some l₀ =>
        have hl₀mem : l₀ ∈ links := List.mem_of_find?_eq_some hf
        have hl₀p := List.find?_some hf
        simp only [Bool.and_eq_true, decide_eq_true_eq] at hl₀p
        have hu : u ∈ Sf := (h2' u).mpr ⟨l₀, hl₀mem, hl₀p.1, hl₀p.2⟩
        simp only [rewriteLnk, if_pos hu, rewriteByLinks, hf]
        unfold trkCanon
        rw [hf]
      | none =>
        have hu : u ∉ Sf := by
          intro hu
          rcases (h2' u).mp hu with ⟨l, hl, hh, hul⟩
          have hnone := List.find?_eq_none.mp hf l hl
          rw [hul] at hh hnone
          simp [hh] at hnone
        simp only [rewriteLnk, if_neg hu, rewriteByLinks, hf]
  refine ⟨Sf, h1, h2', ?_, ?_, ?_⟩
  · show ((sortByPosDesc links).foldl (transformStep t slugifyF linkMap now)
      (render ps, [])).1 = _
    rw [h3, hmapeq]
  · show ((sortByPosDesc links).foldl (transformStep t slugifyF linkMap now)
      (render ps, [])).2.length = _
    simpa using h4
  · show ((sortByPosDesc links).foldl (transformStep t slugifyF linkMap now)
      (render ps, [])).2.length = _
    simpa using h4

/-- C5: rewriting a structured document whose N qualifying occurrences
have pairwise-distinct URLs — each present as a `](url)` markdown tail
piece — together with any number of internal/relative links produces
exactly N change entries; the rewritten text is the rendering in which
only the qualifying link pieces were replaced by their tracking tails,
so every internal link (and every text segment) is byte-for-byte
unchanged in place; an occurrence whose URL does not begin with `http`
(the code's reading of "an HTTP(S) scheme", §4.2) is never rewritten.
The hypotheses state the claim's scenario: well-formed markdown
structure, one link piece per qualifying URL, and tracking URLs that
are clean, consistent per URL, and distinct from every document URL. -/
theorem transformFile_rewrites_externals_leaves_internals
    (t : Transformer) (slugifyF : SlugifyFn) (fp : Str) (now : Nat)
    (ps : List MDPiece) (links : List ExtractedLink)
    (linkMap : List (Str × AffiliateLink))
    (hwf : wfPieces ps)
    (hext : ∀ l ∈ links, isHttp l.url = true →
      MDPiece.lnk l.url ∈ ps ∧ cleanUrl l.url ∧
      cleanUrl (trackingOf t slugifyF linkMap now l) ∧
      MDPiece.lnk (trackingOf t slugifyF linkMap now l) ∉ ps)
    (hcons : ∀ l ∈ links, ∀ l' ∈ links, l.url = l'.url →
      trackingOf t slugifyF linkMap now l = trackingOf t slugifyF linkMap now l')
    (hnodup : ((links.filter (fun l => isHttp l.url)).map (fun l => l.url)).Nodup) :
    (t.transformFile slugifyF fp (render ps) links linkMap now).changes.length =
      (links.filter (fun l => isHttp l.url)).length ∧
    (t.transformFile slugifyF fp (render ps) links linkMap now).linksTransformed =
      (links.filter (fun l => isHttp l.url)).length ∧
    (t.transformFile slugifyF fp (render ps) links linkMap now).transformedContent =
      render (ps.map (rewriteByLinks t slugifyF linkMap now links)) ∧
    (∀ u, links.find? (fun l => isHttp l.url && decide (l.url = u)) = none →
      rewriteByLinks t slugifyF linkMap now links (MDPiece.lnk u) = MDPiece.lnk u) := by
  rcases transformFile_pieces_core t slugifyF fp now ps links linkMap hwf hext hcons with
    ⟨Sf, h1, h2, h3, h4, h5⟩
  have hlen : Sf.length = ((links.filter (fun l => isHttp l.url)).map
      (fun l => l.url)).length := by
    apply length_eq_of_nodup_mem_iff Sf _ h1 hnodup
    intro u
    rw [h2 u]
    simp only [List.mem_map, List.mem_filter]
    constructor
    · rintro ⟨l, hl, hh, hu⟩
      exact ⟨l, ⟨hl, hh⟩, hu⟩
    · rintro ⟨l, ⟨hl, hh⟩, hu⟩
      exact ⟨l, hl, hh, hu⟩
  rw [List.length_map] at hlen
  refine ⟨h4.trans hlen, h5.trans hlen, h3, ?_⟩
  intro u hf
  simp [rewriteByLinks, hf]

def psWitness : List MDPiece :=
  [MDPiece.seg (str "Intro [x"), MDPiece.lnk (str "https://a.example/p"),
   MDPiece.seg (str " and [y"), MDPiece.lnk (str "https://b.example/q"),
   MDPiece.seg (str " see [z"), MDPiece.lnk (str "/local/page"),
   MDPiece.seg (str " end")]

def linksWitness : List ExtractedLink :=
  [ExtractedLink.mk (str "https://a.example/p") (str "x") (str "post.md") 1 7 false none,
   ExtractedLink.mk (str "https://b.example/q") (str "y") (str "post.md") 1 30 false none,
   ExtractedLink.mk (str "/local/page") (str "z") (str "post.md") 1 55 false none]

def linkMapWitness : List (Str × AffiliateLink) :=
  [(str "https://a.example/p",
    AffiliateLink.mk (str "sa") (str "x") (str "https://a.example/p") false none),
   (str "https://b.example/q",
    AffiliateLink.mk (str "sb") (str "y") (str "https://b.example/q") false none)]

/-- Witness for C5: two distinct external markdown links and one
internal link give exactly two change entries and the expected
rewritten rendering. -/
theorem transformFile_rewrites_externals_leaves_internals_witness :
    (tPlain.transformFile slugifyId (str "post.md") (render psWitness)
        linksWitness linkMapWitness 0).changes.length =
      (linksWitness.filter (fun l => isHttp l.url)).length ∧
    (tPlain.transformFile slugifyId (str "post.md") (render psWitness)
        linksWitness linkMapWitness 0).linksTransformed =
      (linksWitness.filter (fun l => isHttp l.url)).length ∧
    (tPlain.transformFile slugifyId (str "post.md") (render psWitness)
        linksWitness linkMapWitness 0).transformedContent =
      render (psWitness.map (rewriteByLinks tPlain slugifyId linkMapWitness 0
        linksWitness)) ∧
    (∀ u, linksWitness.find? (fun l => isHttp l.url && decide (l.url = u)) = none →
      rewriteByLinks tPlain slugifyId linkMapWitness 0 linksWitness (MDPiece.lnk u) =
        MDPiece.lnk u) :=
  transformFile_rewrites_externals_leaves_internals tPlain slugifyId (str "post.md") 0
    psWitness linksWitness linkMapWitness (by decide) (by decide) (by decide) (by decide)

/-- C6 amended: the changes list records one entry per *distinct*
qualifying URL whose substitution altered the text — not one per
occurrence: a URL occurring (and rewritten) at k distinct positions
contributes a single change entry, because its first processing
replaces all its occurrences globally and later processings match
nothing (the recorded counterexample shows k = 2 positions rewritten
with one entry). -/
theorem transformFile_one_entry_per_distinct_url
    (t : Transformer) (slugifyF : SlugifyFn) (fp : Str) (now : Nat)
    (ps : List MDPiece) (links : List ExtractedLink)
    (linkMap : List (Str × AffiliateLink))
    (hwf : wfPieces ps)
    (hext : ∀ l ∈ links, isHttp l.url = true →
      MDPiece.lnk l.url ∈ ps ∧ cleanUrl l.url ∧
      cleanUrl (trackingOf t slugifyF linkMap now l) ∧
      MDPiece.lnk (trackingOf t slugifyF linkMap now l) ∉ ps)
    (hcons : ∀ l ∈ links, ∀ l' ∈ links, l.url = l'.url →
      trackingOf t slugifyF linkMap now l = trackingOf t slugifyF linkMap now l') :
    (t.transformFile slugifyF fp (render ps) links linkMap now).changes.length =
      (dedupStr ((links.filter (fun l => isHttp l.url)).map (fun l => l.url))).length ∧
    (t.transformFile slugifyF fp (render ps) links linkMap now).linksTransformed =
      (dedupStr ((links.filter (fun l => isHttp l.url)).map (fun l => l.url))).length ∧
    (t.transformFile slugifyF fp (render ps) links linkMap now).transformedContent =
      render (ps.map (rewriteByLinks t slugifyF linkMap now links)) := by
  rcases transformFile_pieces_core t slugifyF fp now ps links linkMap hwf hext hcons with
    ⟨Sf, h1, h2, h3, h4, h5⟩
  have hlen : Sf.length =
      (dedupStr ((links.filter (fun l => isHttp l.url)).map (fun l => l.url))).length := by
    apply length_eq_of_nodup_mem_iff Sf _ h1 (dedupStrAux_nodup _ [])
    intro u
    rw [h2 u, dedupStrAux_mem]
    simp only [List.not_mem_nil, not_false_eq_true, true_and, List.mem_map,
      List.mem_filter]
    constructor
    · rintro ⟨l, hl, hh, hu⟩
      exact ⟨l, ⟨hl, hh⟩, hu⟩
    · rintro ⟨l, ⟨hl, hh⟩, hu⟩
      exact ⟨l, hl, hh, hu⟩
  exact ⟨h4.trans hlen, h5.trans hlen, h3⟩

def psRepeat : List MDPiece :=
  [MDPiece.seg (str "[a"), MDPiece.lnk (str "http://x"),
   MDPiece.seg (str " [b"), MDPiece.lnk (str "http://x")]

def linksRepeat : List ExtractedLink :=
  [ExtractedLink.mk (str "http://x") (str "a") (str "post.md") 1 1 false none,
   ExtractedLink.mk (str "http://x") (str "b") (str "post.md") 1 15 false none]

def linkMapRepeat : List (Str × AffiliateLink) :=
  [(str "http://x", AffiliateLink.mk (str "x") (str "a") (str "http://x") false none)]

/-- Witness for the amended C6: two occurrences of the same URL at two
positions yield one change entry (the deduplicated URL list has length
one) and both positions are rewritten. -/
theorem transformFile_one_entry_per_distinct_url_witness :
    (tPlain.transformFile slugifyId (str "post.md") (render psRepeat)
        linksRepeat linkMapRepeat 0).changes.length =
      (dedupStr ((linksRepeat.filter (fun l => isHttp l.url)).map (fun l => l.url))).length ∧
    (tPlain.transformFile slugifyId (str "post.md") (render psRepeat)
        linksRepeat linkMapRepeat 0).linksTransformed =
      (dedupStr ((linksRepeat.filter (fun l => isHttp l.url)).map (fun l => l.url))).length ∧
    (tPlain.transformFile slugifyId (str "post.md") (render psRepeat)
        linksRepeat linkMapRepeat 0).transformedContent =
      render (psRepeat.map (rewriteByLinks tPlain slugifyId linkMapRepeat 0 linksRepeat)) :=
  transformFile_one_entry_per_distinct_url tPlain slugifyId (str "post.md") 0
    psRepeat linksRepeat linkMapRepeat (by decide) (by decide) (by decide)
